import Mathlib

/-!
# Verification of the Minesweeper board engine

Shallow embedding of the board engine of `wp-proj06.py`.

Modelling conventions:
* A cell is stored in the Python code as a 2-character string, e.g. `"0H"`,
  `"*S"`.  We model a cell as an ordered pair of characters
  `(content, visibility)`.  The loader validates that every token has
  exactly two characters before the token is stored, so the pair view is
  exact on every board the program builds.
* Python strings are modelled as `List Char`; `str.strip()` and
  `str.split(' ')` are modelled character by character below.
* Indices handed to the board methods are Python `int`s and may be
  negative; we model them as `Int` and translate the bound checks
  literally.
* Exceptions are modelled by `Except`: a function that can raise returns
  `Except E A`.  A method that raises before mutating `self` is embedded
  as a function that returns an error and no board, so "the board is
  unchanged on failure" is inherent in the embedding and is noted where a
  claim asks for it.
* `random.randint` outcomes are modelled by passing the stream of chosen
  cells explicitly; `randint(0, rows-1)` always yields an in-range value,
  which becomes a hypothesis on the stream.
-/

set_option maxHeartbeats 1000000
set_option linter.unnecessarySeqFocus false

abbrev Cell : Type := Char × Char

abbrev Pos : Type := Int × Int

/-- The board: dimensions plus the cell matrix (`self.rows`,
`self.columns`, `self.board` in the source). -/
structure Board where
  rows : Nat
  columns : Nat
  board : List (List Cell)
deriving DecidableEq, Repr

/-- `GameStatus` of the source (integer pseudo-enum `range(4)`). -/
inductive GameStatus where
  | NotStarted
  | InProgress
  | Win
  | Lose
deriving DecidableEq, Repr

/-- Errors raised by `load_board`: `BoardFormatException` and
`DimensionsMismatchException`. -/
inductive LoadErr where
  | boardFormat
  | dimensionsMismatch
deriving DecidableEq, Repr

/-- Errors raised by cell access / `uncover` / `make_move`:
`IllegalIndicesException` and `IllegalMoveException`. -/
inductive MoveErr where
  | illegalIndices
  | illegalMove
deriving DecidableEq, Repr

/-- `ScatterException` raised by `put_mines`. -/
inductive ScatterErr where
  | scatter
deriving DecidableEq, Repr

/-! ## Python string primitives -/

/-- The whitespace characters recognised by Python's `str.strip()`. -/
def isPySpace (c : Char) : Bool :=
  c == ' ' || c == '\t' || c == '\n' || c == '\r' ||
    c == Char.ofNat 11 || c == Char.ofNat 12

/-- `str.strip()`: remove leading and trailing whitespace. -/
def pyStrip (l : List Char) : List Char :=
  ((l.dropWhile isPySpace).reverse.dropWhile isPySpace).reverse

/-- `str.split(' ')`: split on every single space, keeping empty pieces
(`"a  b".split(' ') == ['a', '', 'b']`). -/
def pySplitSp : List Char → List (List Char)
  | [] => [[]]
  | c :: rest =>
    if c == ' ' then [] :: pySplitSp rest
    else
      match pySplitSp rest with
      | [] => [[c]]
      | h :: t => (c :: h) :: t

/-! ## load_board -/

/-- `validX = [str(x) for x in range(9)] + ['*']` (source line 187). -/
def validX : List Char := ['0', '1', '2', '3', '4', '5', '6', '7', '8', '*']

/-- `validY = ['H', 'S']` (source line 188). -/
def validY : List Char := ['H', 'S']

/-- The per-cell validation loop of `load_board` (source lines 199-203):
every token must have exactly 2 characters, the first in `validX`, the
second in `validY`; otherwise `BoardFormatException`.  The validated
2-character tokens are returned as cell pairs. -/
def validateRow : List (List Char) → Except LoadErr (List Cell)
  | [] => .ok []
  | t :: ts =>
    match t with
    | [x, y] =>
      if validX.contains x && validY.contains y then
        match validateRow ts with
        | .ok cells => .ok ((x, y) :: cells)
        | .error e => .error e
      else .error .boardFormat
    | _ => .error .boardFormat

/-- The line loop of `load_board` (source lines 191-215): strip each
line, skip blank lines, split on spaces, validate the tokens, check the
width, accumulate the rows; finally check that at least one valid line
was seen and that the number of valid lines equals `rows`.  `acc.length`
plays the role of the `nRows` counter. -/
def loadGo (rows columns : Nat) : List (List Char) → List (List Cell) →
    Except LoadErr (List (List Cell))
  | [], acc =>
    if acc.length = 0 then .error .boardFormat
    else if acc.length ≠ rows then .error .dimensionsMismatch
    else .ok acc
  | line :: rest, acc =>
    let l := pyStrip line
    if l.length = 0 then loadGo rows columns rest acc
    else
      match validateRow (pySplitSp l) with
      | .error e => .error e
      | .ok cells =>
        if cells.length ≠ columns then .error .dimensionsMismatch
        else loadGo rows columns rest (acc ++ [cells])

/-- `load_board(lines)` (source lines 143-215).  Returns the new cell
matrix that the method assigns to `self.board`. -/
def loadBoard (rows columns : Nat) (lines : List (List Char)) :
    Except LoadErr (List (List Cell)) :=
  loadGo rows columns lines []

/-! ## save_board -/

/-- One row of the serialized board (source lines 251-254): every cell's
two characters followed by a space; the newline terminates the line and
is not part of it. -/
def saveRowLine (row : List Cell) : List Char :=
  row.foldl (fun acc c => acc ++ [c.1, c.2, ' ']) []

/-- The row lines of `save_board`'s output (the lines after the two
dimension lines). -/
def saveLines (b : Board) : List (List Char) :=
  b.board.map saveRowLine

/-! ## Cell access -/

/-- `checkIndices` (source lines 431-433): `True` iff the indices are in
bounds. The source raises `IllegalIndicesException` on `False`. -/
def checkIndices (b : Board) (row column : Int) : Bool :=
  !(row < 0 || row ≥ (b.rows : Int) || column < 0 || column ≥ (b.columns : Int))

/-- Total accessor for the cell matrix; bounds are always checked before
this is consulted, so the dummy cell is never observable. -/
def getCell (b : Board) (row column : Int) : Cell :=
  ((b.board.getD row.toNat []).getD column.toNat ('?', '?'))

/-- `get_value` (source line 283): the content character of a cell.  The
source checks the indices first; every call site below is guarded by
`checkIndices`, so we model the lookup as total. -/
def getValue (b : Board) (row column : Int) : Char :=
  (getCell b row column).1

/-- `is_hidden` (source lines 302-305): `'H'` when the visibility
character is `'H'`, `'S'` otherwise. -/
def isHiddenCh (b : Board) (row column : Int) : Char :=
  if (getCell b row column).2 = 'H' then 'H' else 'S'

/-- The successful branch of `uncover` (source line 329): replace the
cell by its content character followed by `'S'`. -/
def uncoverSet (b : Board) (row column : Int) : Board :=
  { b with
    board := b.board.set row.toNat
      ((b.board.getD row.toNat []).set column.toNat
        ((getCell b row column).1, 'S')) }

/-- `uncover` (source lines 307-329): index check, then
`IllegalMoveException` when the cell is already seen, otherwise flip the
visibility to `'S'`. -/
def uncover (b : Board) (row column : Int) : Except MoveErr Board :=
  if !checkIndices b row column then .error .illegalIndices
  else if isHiddenCh b row column = 'S' then .error .illegalMove
  else .ok (uncoverSet b row column)

/-! ## Neighbour enumeration and the ripple (cascade) sequence -/

/-- `get_neighbours` (source lines 401-411): the eight surrounding
coordinates, clockwise starting above, clipped to the board bounds. -/
def getNeighbours (b : Board) (cell : Pos) : List Pos :=
  let r := cell.1
  let c := cell.2
  [(r-1, c), (r-1, c+1), (r, c+1), (r+1, c+1),
    (r+1, c), (r+1, c-1), (r, c-1), (r-1, c-1)].filter
    (fun p => 0 ≤ p.1 && p.1 < (b.rows : Int) && 0 ≤ p.2 && p.2 < (b.columns : Int))

/-- The `while` loop of `ripple_sequence` (source lines 386-396), with an
explicit fuel argument.  Each iteration pops one cell into `seq`; the
de-duplication (`x not in ripple_seq and x not in queue`) means each cell
is popped at most once, so `rows * columns + 1` units of fuel always
suffice (`rippleAux_fuel_stable` below); the fuel-exhaustion branch is
unreachable at the fuel the wrapper passes. -/
def rippleAux (b : Board) : Nat → List Pos → List Pos → List Pos
  | 0, _, seq => seq
  | _ + 1, [], seq => seq
  | fuel + 1, q :: rest, seq =>
    let seq' := seq ++ [q]
    if getValue b q.1 q.2 ≠ '0' then rippleAux b fuel rest seq'
    else
      let neighbours := getNeighbours b q
      let hiddenNeighbours := neighbours.filter
        (fun p => isHiddenCh b p.1 p.2 == 'H')
      let newNeighbours := hiddenNeighbours.filter
        (fun p => !seq'.contains p && !rest.contains p)
      rippleAux b fuel (rest ++ newNeighbours) seq'

/-- `ripple_sequence` (source lines 342-399): index check, the BFS loop
seeded with the start cell, and the final `ripple_seq[1:]`. -/
def rippleSequence (b : Board) (row column : Int) :
    Except MoveErr (List Pos) :=
  if !checkIndices b row column then .error .illegalIndices
  else .ok ((rippleAux b (b.rows * b.columns + 1) [(row, column)] []).drop 1)

/-! ## Game status -/

/-- The cell scan of `get_status` (source lines 471-489): visit cells in
row-major order carrying the two flags, returning `Lose` as soon as an
uncovered mine is met. -/
def statusScan :
    List Cell → Bool → Bool → GameStatus
  | [], containsUncovered, containsCoveredNonMine =>
    if !containsUncovered then .NotStarted
    else if !containsCoveredNonMine then .Win
    else .InProgress
  | cell :: rest, containsUncovered, containsCoveredNonMine =>
    let hidden := cell.2 == 'H'
    if !hidden && cell.1 == '*' then .Lose
    else statusScan rest (containsUncovered || !hidden)
      (containsCoveredNonMine || (cell.1 != '*' && hidden))

/-- `get_status` (source lines 456-489).  The double index loop visits
exactly the row-major flattening of the cell matrix. -/
def getStatus (b : Board) : GameStatus :=
  statusScan b.board.flatten false false

/-! ## make_move -/

/-- `make_move` (source lines 491-521): uncover the cell, return its
value at once unless it is `'0'`, otherwise uncover every cell of the
ripple sequence in order and return the value.  The source reads the
value and calls `ripple_sequence` with the indices that `uncover` has
just validated, so those secondary index checks cannot fail. -/
def makeMove (b : Board) (row column : Int) :
    Except MoveErr (Board × Char) := do
  let b1 ← uncover b row column
  let cellValue := getValue b1 row column
  if cellValue ≠ '0' then return (b1, cellValue)
  let rippleSeq ← rippleSequence b1 row column
  let b2 ← rippleSeq.foldlM (fun bb p => uncover bb p.1 p.2) b1
  return (b2, cellValue)

/-! ## Board construction and mine placement -/

/-- `Board.__init__` (source lines 46-81): bounds check, then the all
`'0H'` hidden matrix. -/
def mkBoard (rows columns : Int) : Option Board :=
  if rows < 1 || rows > 20 || columns < 2 || columns > 50 then none
  else some
    { rows := rows.toNat, columns := columns.toNat,
      board := List.replicate rows.toNat
        (List.replicate columns.toNat ('0', 'H')) }

/-- The starting-state scan of `put_mines` (source lines 113-116): every
cell must have value `'0'` and be hidden. -/
def startStateOk (b : Board) : Bool :=
  (List.range b.rows).all fun i =>
    (List.range b.columns).all fun j =>
      getValue b (i : Int) (j : Int) == '0' && isHiddenCh b (i : Int) (j : Int) == 'H'

/-- Write one cell of the matrix (an assignment `self.board[i][j] = v`). -/
def setCellB (b : Board) (row column : Int) (v : Cell) : Board :=
  { b with
    board := b.board.set row.toNat
      ((b.board.getD row.toNat []).set column.toNat v) }

/-- The mine-placement `while` loop (source lines 119-126), with the
stream of `random.randint` outcomes made explicit.  Returns `none` when
the stream is exhausted before `mines` mines are placed (a
non-terminating outcome of the random choices). -/
def placeLoop (target : Nat) : List Pos → Board → Nat → Option Board
  | choices, b, placed =>
    if placed ≥ target then some b
    else
      match choices with
      | [] => none
      | (i, j) :: rest =>
        if getValue b i j ≠ '*' then
          placeLoop target rest (setCellB b i j ('*', 'H')) (placed + 1)
        else placeLoop target rest b placed

/-- `surrounding_coords` of the digit-update pass (source line 134);
note its order differs from `get_neighbours`. -/
def surroundingCoords (i j : Int) : List Pos :=
  [(i+1, j+1), (i-1, j-1), (i+1, j-1), (i-1, j+1),
    (i+1, j), (i-1, j), (i, j-1), (i, j+1)]

/-- `'%dH' % n` writes the digit character of `n` (always `0 ≤ n ≤ 8`
here). -/
def digitChar (n : Nat) : Char := Char.ofNat (48 + n)

/-- `mines_touching` of the digit-update pass (source lines 132-139). -/
def minesTouching (b : Board) (i j : Int) : Nat :=
  ((surroundingCoords i j).filter
    (fun p => 0 ≤ p.1 && p.1 < (b.rows : Int) && 0 ≤ p.2 && p.2 < (b.columns : Int))).countP
    (fun p => getValue b p.1 p.2 == '*')

/-- One iteration of the digit-update double loop (source lines
129-141): skip mine cells, otherwise write the neighbour mine count with
visibility `'H'`. -/
def updateStep (b : Board) (p : Nat × Nat) : Board :=
  if getValue b (p.1 : Int) (p.2 : Int) = '*' then b
  else setCellB b (p.1 : Int) (p.2 : Int)
    (digitChar (minesTouching b (p.1 : Int) (p.2 : Int)), 'H')

/-- The row-major index sequence of the double loop
`for i in range(rows): for j in range(columns)`. -/
def cellIndices (rows columns : Nat) : List (Nat × Nat) :=
  (List.range rows).flatMap fun i => (List.range columns).map fun j => (i, j)

/-- The digit-update pass of `put_mines` (source lines 129-141),
linearised in the source's row-major order. -/
def updateDigits (b : Board) : Board :=
  (cellIndices b.rows b.columns).foldl updateStep b

/-- `put_mines` (source lines 83-141): the mine-count bound check, the
starting-state check, the placement loop over the random stream, the
digit update.  `none` means the random stream was exhausted before the
loop finished (a non-terminating outcome). -/
def putMines (b : Board) (mines : Int) (choices : List Pos) :
    Except ScatterErr (Option Board) :=
  if mines < 1 || mines > (b.rows * b.columns : Int) - 1 then .error .scatter
  else if !startStateOk b then .error .scatter
  else .ok ((placeLoop mines.toNat choices b 0).map updateDigits)

/-! ## Well-formedness and specification-side definitions -/

/-- The cell matrix really has the recorded dimensions (the Python lists
always do by construction). -/
def WF (b : Board) : Prop :=
  b.board.length = b.rows ∧ ∀ row ∈ b.board, row.length = b.columns

instance : DecidablePred WF := fun b => by
  unfold WF; infer_instance

/-- A cell holding a legal content character and a legal visibility
character. -/
def validCell (c : Cell) : Bool :=
  validX.contains c.1 && validY.contains c.2

/-- A validly-constructed grid: dimensions within the construction
bounds, matrix of the recorded shape, every cell legal. -/
def ValidBoard (b : Board) : Prop :=
  1 ≤ b.rows ∧ b.rows ≤ 20 ∧ 2 ≤ b.columns ∧ b.columns ≤ 50 ∧ WF b ∧
    ∀ row ∈ b.board, ∀ c ∈ row, validCell c = true

instance : DecidablePred ValidBoard := fun b => by
  unfold ValidBoard; infer_instance

/-- Specification-side status predicate: some mine cell is revealed. -/
def anyRevealedMine (b : Board) : Bool :=
  b.board.flatten.any fun c => c.2 != 'H' && c.1 == '*'

/-- Specification-side status predicate: some cell is revealed. -/
def anyRevealed (b : Board) : Bool :=
  b.board.flatten.any fun c => c.2 != 'H'

/-- Specification-side status predicate: every non-mine cell is
revealed. -/
def allNonMineRevealed (b : Board) : Bool :=
  b.board.flatten.all fun c => c.1 == '*' || c.2 != 'H'

/-- The game status as the specification words it: `Lost` if any mine
cell is revealed (checked first), else `NotStarted` if no cell is
revealed, else `Won` if every non-mine cell is revealed, else
`InProgress`. -/
def statusSpec (b : Board) : GameStatus :=
  if anyRevealedMine b then .Lose
  else if !anyRevealed b then .NotStarted
  else if allNonMineRevealed b then .Win
  else .InProgress

/-- The specification's neighbour enumeration for the cascade: clockwise
starting above, clipped to in-bounds cells. -/
def specNeighbours (b : Board) (r c : Int) : List Pos :=
  [(r-1, c), (r-1, c+1), (r, c+1), (r+1, c+1),
    (r+1, c), (r+1, c-1), (r, c-1), (r-1, c-1)].filter
    (fun p => 0 ≤ p.1 && p.1 < (b.rows : Int) && 0 ≤ p.2 && p.2 < (b.columns : Int))

/-- The breadth-first cascade as the specification words it.  `seen` is
the set of cells ever enqueued; a dequeued cell is expanded only when
its value is `'0'`; only hidden, in-bounds, not-yet-seen neighbours are
enqueued, in the fixed clockwise order. -/
def cascadeSpecAux (b : Board) : Nat → List Pos → List Pos → List Pos
  | 0, _, _ => []
  | _ + 1, [], _ => []
  | fuel + 1, q :: rest, seen =>
    let enq :=
      if getValue b q.1 q.2 = '0' then
        (specNeighbours b q.1 q.2).filter
          (fun p => isHiddenCh b p.1 p.2 == 'H' && !seen.contains p)
      else []
    q :: cascadeSpecAux b fuel (rest ++ enq) (seen ++ enq)

/-- The cascade sequence of the specification: the breadth-first
dequeue order, with the start cell excluded from the result. -/
def cascadeSpec (b : Board) (row column : Int) : List Pos :=
  (cascadeSpecAux b (b.rows * b.columns + 1)
    [(row, column)] [(row, column)]).drop 1

/-- The specification's neighbour-mine count: the number of in-bounds
8-neighbours of `(i, j)` holding a mine. -/
def specMineCount (b : Board) (i j : Int) : Nat :=
  (specNeighbours b i j).countP fun p => getValue b p.1 p.2 == '*'

/-- Total count of mine cells on the board. -/
def countMines (b : Board) : Nat :=
  b.board.flatten.countP fun c => c.1 == '*'

/-- A line of the input that cannot make `load_board` fail with
`DimensionsMismatch` before a later line is examined: its split either
fails token validation (any such failure is `boardFormat`) or produces
exactly `columns` valid tokens. -/
def goodPreLine (columns : Nat) (l : List Char) : Bool :=
  match validateRow (pySplitSp (pyStrip l)) with
  | .ok cells => cells.length == columns
  | .error _ => true

/-- The serialized form of a row without its trailing space: the cell
tokens separated by single spaces. -/
def rowCore : List Cell → List Char
  | [] => []
  | [c] => [c.1, c.2]
  | c :: rest => [c.1, c.2, ' '] ++ rowCore rest

/-! ## Lemmas about token splitting and validation -/

lemma pySplitSp_ne_nil (l : List Char) : pySplitSp l ≠ [] := by
  cases l with
  | nil => simp [pySplitSp]
  | cons c rest =>
    simp only [pySplitSp]
    split
    · simp
    · cases h : pySplitSp rest <;> simp

/-- The split distributes over a single separating space. -/
lemma pySplitSp_append_space (a b : List Char) :
    pySplitSp (a ++ ' ' :: b) = pySplitSp a ++ pySplitSp b := by
  induction a with
  | nil => simp [pySplitSp]
  | cons c a ih =>
    by_cases hc : c = ' '
    · subst hc
      simp [pySplitSp, List.append_eq, ih]
    · have hc' : (c == ' ') = false := by simpa using hc
      simp only [List.cons_append, pySplitSp, hc', if_false]
      cases h : pySplitSp a with
      | nil => exact absurd h (pySplitSp_ne_nil _)
      | cons h' t =>
        rw [List.append_eq, ih, h]
        rfl

/-- A doubled space inside a line yields an empty piece in the split. -/
lemma nil_mem_pySplitSp (p s : List Char) :
    [] ∈ pySplitSp (p ++ ' ' :: ' ' :: s) := by
  rw [pySplitSp_append_space p (' ' :: s)]
  refine List.mem_append_right _ ?_
  simp [pySplitSp]

/-- `validateRow` only ever fails with `boardFormat`. -/
lemma validateRow_error_shape :
    ∀ ts e, validateRow ts = .error e → e = .boardFormat := by
  intro ts
  induction ts with
  | nil => intro e h; simp [validateRow] at h
  | cons t ts ih =>
    intro e h
    match t with
    | [] => simp [validateRow] at h; exact h.symm
    | [x] => simp [validateRow] at h; exact h.symm
    | x :: y :: z :: rest => simp [validateRow] at h; exact h.symm
    | [x, y] =>
      simp only [validateRow] at h
      split at h
      · cases hv : validateRow ts with
        | ok cells => rw [hv] at h; simp at h
        | error e' =>
          rw [hv] at h
          simp only [Except.error.injEq] at h
          exact h ▸ ih e' hv
      · simp only [Except.error.injEq] at h
        exact h.symm

/-- An empty token in the row makes `validateRow` fail with
`boardFormat`. -/
lemma validateRow_nil_mem :
    ∀ ts, [] ∈ ts → validateRow ts = .error .boardFormat := by
  intro ts
  induction ts with
  | nil => intro h; simp at h
  | cons t ts ih =>
    intro h
    rcases List.mem_cons.mp h with h0 | h0
    · subst h0; simp [validateRow]
    · match t with
      | [] => simp [validateRow]
      | [x] => simp [validateRow]
      | x :: y :: z :: rest => simp [validateRow]
      | [x, y] =>
        simp only [validateRow]
        split
        · rw [ih h0]
        · rfl

lemma loadGo_double_space_bf (rows columns : Nat) (l : List Char)
    (post : List (List Char)) (p s : List Char)
    (hl : pyStrip l = p ++ ' ' :: ' ' :: s) :
    ∀ pre acc, pre.all (goodPreLine columns) = true →
      loadGo rows columns (pre ++ l :: post) acc = .error .boardFormat := by
  intro pre
  induction pre with
  | nil =>
    intro acc _
    simp only [List.nil_append, loadGo, hl]
    have hlen : (p ++ ' ' :: ' ' :: s).length ≠ 0 := by simp
    rw [if_neg hlen, validateRow_nil_mem _ (nil_mem_pySplitSp p s)]
  | cons l' pre ih =>
    intro acc hall
    simp only [List.all_cons, Bool.and_eq_true] at hall
    simp only [List.cons_append, loadGo]
    split
    · exact ih acc hall.2
    · cases hv : validateRow (pySplitSp (pyStrip l')) with
      | error e =>
        have he := validateRow_error_shape _ _ hv
        subst he
        rfl
      | ok cells =>
        have hlen : cells.length = columns := by
          have hg := hall.1
          rw [goodPreLine, hv] at hg
          simpa using hg
        simp only [ne_eq, hlen, not_true_eq_false, if_false]
        exact ih _ hall.2

/-- C1: `load_board`'s own contract says `BoardFormatException` is
raised whenever both exceptions are possible, but on an input whose
first line has well-formed tokens of the wrong width and whose second
line has a malformed token, the code raises
`DimensionsMismatchException`: the width of a line is checked as soon as
that line is parsed, before any later line is looked at. -/
theorem claim_C1_divergence :
    validateRow (pySplitSp (pyStrip "XX".toList)) = .error .boardFormat ∧
    loadBoard 2 2 ["0H 1H 2H".toList, "XX".toList] =
      .error .dimensionsMismatch := by
  constructor <;> rfl

/-- C10 counterexample: an input whose second line has two tokens
separated by a doubled space still fails with `DimensionsMismatch`, not
`MalformedInput`, because the first line's wrong width is detected
first. -/
theorem claim_C10_counterexample :
    pyStrip "0H  1H".toList =
      "0H".toList ++ ' ' :: ' ' :: "1H".toList ∧
    loadBoard 2 2 ["0H 1H 2H".toList, "0H  1H".toList] =
      .error .dimensionsMismatch := by
  constructor <;> rfl

/-- C10 (amended): if some line of the input contains two cell tokens
separated by more than one space, and no earlier line can fail the
width check (each earlier line either fails token validation — which
also gives `MalformedInput` — or parses to exactly `columnCount` valid
tokens), then loading fails with `MalformedInput`: the doubled space
produces an empty token, rejected as a wrong-length token, and never
with `DimensionMismatch`. -/
theorem claim_C10_amended (rows columns : Nat) (pre post : List (List Char))
    (l p s : List Char) (hdouble : pyStrip l = p ++ ' ' :: ' ' :: s)
    (hpre : pre.all (goodPreLine columns) = true) :
    loadBoard rows columns (pre ++ l :: post) = .error .boardFormat :=
  loadGo_double_space_bf rows columns l post p s hdouble pre [] hpre

/-- C10 amended, at a concrete input: a first line of the right width,
then a line with a doubled space. -/
theorem claim_C10_amended_witness :
    pyStrip "0H  1H".toList = "0H".toList ++ ' ' :: ' ' :: "1H".toList ∧
    ["0H 1H".toList].all (goodPreLine 2) = true ∧
    loadBoard 2 2 ["0H 1H".toList, "0H  1H".toList] = .error .boardFormat :=
  ⟨rfl, by decide,
    claim_C10_amended 2 2 ["0H 1H".toList] [] "0H  1H".toList
      "0H".toList "1H".toList rfl (by decide)⟩

/-! ## The status scan computes the declarative status -/

/-- Closed form of the `get_status` scan for arbitrary flag values. -/
lemma statusScan_formula :
    ∀ (cells : List Cell) (u c : Bool),
    statusScan cells u c =
      if cells.any (fun y => y.2 != 'H' && y.1 == '*') then .Lose
      else if !u && !cells.any (fun y => y.2 != 'H') then .NotStarted
      else if !c && !cells.any (fun y => y.1 != '*' && y.2 == 'H') then .Win
      else .InProgress := by
  intro cells
  induction cells with
  | nil => intro u c; simp [statusScan]
  | cons x xs ih =>
    intro u c
    simp only [statusScan, List.any_cons]
    rw [ih]
    rcases Bool.dichotomy (xs.any fun y => y.2 != 'H' && y.1 == '*') with hA | hA <;>
      rcases Bool.dichotomy (xs.any fun y => y.2 != 'H') with hB | hB <;>
        rcases Bool.dichotomy (xs.any fun y => y.1 != '*' && y.2 == 'H') with hC | hC <;>
          rcases Bool.dichotomy (x.2 == 'H') with h1 | h1 <;>
            rcases Bool.dichotomy (x.1 == '*') with h2 | h2 <;>
              cases u <;> cases c <;>
                (simp only [bne] at hA hB hC ⊢; simp [hA, hB, hC, h1, h2])

/-- The scan of `get_status` computes the declarative status. -/
lemma getStatus_eq_statusSpec (b : Board) : getStatus b = statusSpec b := by
  have hpt : ∀ x : Cell, (x.1 != '*' && x.2 == 'H') = !(x.1 == '*' || x.2 != 'H') := by
    intro x
    cases h1 : (x.1 == '*') <;> cases h2 : (x.2 == 'H') <;> simp [h1, h2, bne]
  have hall : allNonMineRevealed b =
      !b.board.flatten.any (fun x => x.1 != '*' && x.2 == 'H') := by
    rw [allNonMineRevealed]
    simp only [hpt, List.all_eq_not_any_not]
  rw [getStatus, statusSpec, statusScan_formula, anyRevealedMine, anyRevealed, hall]
  simp only [Bool.not_false, Bool.true_and]

/-- C4: for every grid state, `get_status` returns `Lose` if any mine
cell is revealed (checked first, taking precedence over every other
condition including a simultaneous apparent win); otherwise
`NotStarted` if no cell is revealed; otherwise `Win` if every non-mine
cell is revealed; otherwise `InProgress`. -/
theorem claim_C4_status_cases (b : Board) : getStatus b = statusSpec b :=
  getStatus_eq_statusSpec b

/-! ## Lemmas about the ripple sequence -/

lemma getNeighbours_eq_spec (b : Board) (q : Pos) :
    getNeighbours b q = specNeighbours b q.1 q.2 := rfl

lemma nodup_getNeighbours (b : Board) (q : Pos) :
    (getNeighbours b q).Nodup := by
  apply List.Nodup.filter
  obtain ⟨r, c⟩ := q
  simp [List.nodup_cons, Prod.mk.injEq]
  omega

lemma checkIndices_of_mem_getNeighbours {b : Board} {p q : Pos}
    (h : p ∈ getNeighbours b q) : checkIndices b p.1 p.2 = true := by
  rw [getNeighbours] at h
  simp only [List.mem_filter, Bool.and_eq_true, decide_eq_true_eq] at h
  rw [checkIndices]
  simp only [Bool.not_eq_true', Bool.or_eq_false_iff, decide_eq_false_iff_not]
  omega

lemma rippleAux_nil (b : Board) : ∀ fuel seq, rippleAux b fuel [] seq = seq := by
  intro fuel seq
  cases fuel <;> rfl

lemma rippleAux_zero (b : Board) :
    ∀ queue seq, rippleAux b 0 queue seq = seq := by
  intro queue seq
  cases queue <;> rfl

/-- The loop of `ripple_sequence` computes exactly the
specification-side traversal, provided `vis` holds the same cells as
`seq ++ queue` (every cell ever enqueued). -/
lemma rippleAux_eq_cascadeSpecAux (b : Board) :
    ∀ fuel queue seq vis,
    (∀ p : Pos, p ∈ vis ↔ p ∈ seq ∨ p ∈ queue) →
    rippleAux b fuel queue seq = seq ++ cascadeSpecAux b fuel queue vis := by
  intro fuel
  induction fuel with
  | zero => intro queue seq vis _; simp [rippleAux, cascadeSpecAux]
  | succ f ih =>
    intro queue seq vis hinv
    cases queue with
    | nil => simp [rippleAux, cascadeSpecAux]
    | cons q rest =>
      simp only [rippleAux, cascadeSpecAux]
      by_cases hv : getValue b q.1 q.2 = '0'
      · rw [if_neg (by simp [hv]), if_pos hv]
        have hfilter :
            ((getNeighbours b q).filter
                (fun p => isHiddenCh b p.1 p.2 == 'H')).filter
              (fun p => !(seq ++ [q]).contains p && !rest.contains p) =
            (specNeighbours b q.1 q.2).filter
              (fun p => isHiddenCh b p.1 p.2 == 'H' && !vis.contains p) := by
          rw [List.filter_filter, ← getNeighbours_eq_spec]
          apply List.filter_congr
          intro p _
          have hmem : p ∈ vis ↔ p ∈ (seq ++ [q]) ∨ p ∈ rest := by
            rw [hinv p]
            simp [or_assoc, or_comm, or_left_comm]
          rcases Bool.dichotomy (isHiddenCh b p.1 p.2 == 'H') with hh | hh <;>
            rcases Bool.dichotomy ((seq ++ [q]).contains p) with h1 | h1 <;>
              rcases Bool.dichotomy (rest.contains p) with h2 | h2 <;>
                rcases Bool.dichotomy (vis.contains p) with h3 | h3 <;>
                  simp_all [List.elem_iff]
        rw [hfilter]
        generalize (specNeighbours b q.1 q.2).filter
          (fun p => isHiddenCh b p.1 p.2 == 'H' && !vis.contains p) = E
        rw [ih (rest ++ E) (seq ++ [q]) (vis ++ E) ?_]
        · simp
        · intro p
          have hp := hinv p
          simp only [List.mem_cons] at hp
          simp only [List.mem_append, List.mem_singleton]
          tauto
      · rw [if_pos (by simpa using hv), if_neg hv]
        simp only [List.append_nil]
        rw [ih rest (seq ++ [q]) vis ?_]
        · simp
        · intro p
          have hp := hinv p
          simp only [List.mem_cons] at hp
          simp only [List.mem_append, List.mem_singleton]
          tauto

/-- C3: for every in-bounds start cell, `ripple_sequence` returns
exactly the breadth-first sequence described by the specification:
dequeued cells are expanded only when their value is `'0'`; neighbours
are enumerated clockwise starting above and clipped to the board; only
hidden cells not already visited or queued are enqueued; the start cell
is excluded; the sequence is empty when the start value is nonzero or a
mine. -/
theorem claim_C3_cascade_is_spec_bfs (b : Board) (row column : Int)
    (h : checkIndices b row column = true) :
    rippleSequence b row column = .ok (cascadeSpec b row column) := by
  rw [rippleSequence, if_neg (by simp [h]), cascadeSpec]
  have := rippleAux_eq_cascadeSpecAux b (b.rows * b.columns + 1)
    [(row, column)] [] [(row, column)] (by intro p; simp)
  rw [this]
  rfl

/-- C3 at a concrete input: a 1×2 board whose start cell is an empty
revealed cell; the cascade is the single hidden neighbour. -/
theorem claim_C3_witness :
    checkIndices ⟨1, 2, [[('0', 'S'), ('1', 'H')]]⟩ 0 0 = true ∧
    rippleSequence ⟨1, 2, [[('0', 'S'), ('1', 'H')]]⟩ 0 0 =
      .ok (cascadeSpec ⟨1, 2, [[('0', 'S'), ('1', 'H')]]⟩ 0 0) :=
  ⟨by decide, claim_C3_cascade_is_spec_bfs _ 0 0 (by decide)⟩

/-- The loop of `ripple_sequence` never pops the same cell twice: the
output list stays duplicate-free whenever the visited-plus-queued cells
are. -/
lemma rippleAux_nodup (b : Board) :
    ∀ fuel queue seq, (seq ++ queue).Nodup → (rippleAux b fuel queue seq).Nodup := by
  intro fuel
  induction fuel with
  | zero => intro queue seq h; exact (rippleAux_nil b 0 seq) ▸ h.of_append_left
  | succ f ih =>
    intro queue seq h
    cases queue with
    | nil => exact (rippleAux_nil b (f + 1) seq) ▸ h.of_append_left
    | cons q rest =>
      have hshift : ((seq ++ [q]) ++ rest).Nodup := by
        rw [List.append_assoc]
        exact h
      simp only [rippleAux]
      split
      · exact ih rest (seq ++ [q]) hshift
      · set new := ((getNeighbours b q).filter
          (fun p => isHiddenCh b p.1 p.2 == 'H')).filter
            (fun p => !(seq ++ [q]).contains p && !rest.contains p) with hnew
        have hnodupNew : new.Nodup :=
          ((nodup_getNeighbours b q).filter _).filter _
        have hdisj : ((seq ++ [q]) ++ rest).Disjoint new := by
          intro x hx hxn
          rw [hnew] at hxn
          simp only [List.mem_filter, Bool.and_eq_true, Bool.not_eq_true'] at hxn
          rcases List.mem_append.mp hx with hx1 | hx1
          · have := hxn.2.1
            rw [List.contains_eq_any_beq] at this
            simp only [List.any_eq_false, beq_iff_eq] at this
            exact this x hx1 rfl
          · have := hxn.2.2
            rw [List.contains_eq_any_beq] at this
            simp only [List.any_eq_false, beq_iff_eq] at this
            exact this x hx1 rfl
        have hfinal : ((seq ++ [q]) ++ (rest ++ new)).Nodup := by
          rw [← List.append_assoc]
          exact hshift.append hnodupNew hdisj
        exact ih (rest ++ new) (seq ++ [q]) hfinal

/-- Everything the loop outputs is an initial cell or a hidden in-bounds
cell (new cells enter the queue only through the neighbour filters). -/
lemma rippleAux_mem (b : Board) :
    ∀ fuel queue seq x, x ∈ rippleAux b fuel queue seq →
      x ∈ seq ∨ x ∈ queue ∨
        (checkIndices b x.1 x.2 = true ∧ isHiddenCh b x.1 x.2 = 'H') := by
  intro fuel
  induction fuel with
  | zero =>
    intro queue seq x hx
    rw [rippleAux_zero] at hx
    exact Or.inl hx
  | succ f ih =>
    intro queue seq x hx
    cases queue with
    | nil =>
      rw [rippleAux_nil] at hx
      exact Or.inl hx
    | cons q rest =>
      simp only [rippleAux] at hx
      have hstep :
          ∀ queue' : List Pos, x ∈ seq ++ [q] ∨ x ∈ queue' ∨
              (checkIndices b x.1 x.2 = true ∧ isHiddenCh b x.1 x.2 = 'H') →
            (∀ p ∈ queue', p ∈ rest ∨
              (checkIndices b p.1 p.2 = true ∧ isHiddenCh b p.1 p.2 = 'H')) →
            x ∈ seq ∨ x ∈ q :: rest ∨
              (checkIndices b x.1 x.2 = true ∧ isHiddenCh b x.1 x.2 = 'H') := by
        intro queue' h1 h2
        rcases h1 with h1 | h1 | h1
        · rcases List.mem_append.mp h1 with h1 | h1
          · exact Or.inl h1
          · simp only [List.mem_singleton] at h1
            exact Or.inr (Or.inl (h1 ▸ List.mem_cons_self q rest))
        · rcases h2 x h1 with h3 | h3
          · exact Or.inr (Or.inl (List.mem_cons_of_mem q h3))
          · exact Or.inr (Or.inr h3)
        · exact Or.inr (Or.inr h1)
      split at hx
      · exact hstep rest (ih rest (seq ++ [q]) x hx) (fun p hp => Or.inl hp)
      · refine hstep _ (ih _ (seq ++ [q]) x hx) ?_
        intro p hp
        rcases List.mem_append.mp hp with hp | hp
        · exact Or.inl hp
        · simp only [List.mem_filter, Bool.and_eq_true, beq_iff_eq] at hp
          exact Or.inr ⟨checkIndices_of_mem_getNeighbours hp.1.1, hp.1.2⟩

/-- A duplicate-free list of in-bounds positions has at most
`rows * columns` entries. -/
lemma nodup_inbounds_length_le (b : Board) (l : List Pos)
    (hnd : l.Nodup) (hb : ∀ p ∈ l, checkIndices b p.1 p.2 = true) :
    l.length ≤ b.rows * b.columns := by
  classical
  have h1 : l.toFinset.card = l.length := List.toFinset_card_of_nodup hnd
  have hsub : l.toFinset ⊆
      (Finset.range b.rows ×ˢ Finset.range b.columns).image
        (fun ij : Nat × Nat => (((ij.1 : Int), (ij.2 : Int)) : Pos)) := by
    intro p hp
    rw [List.mem_toFinset] at hp
    have hc := hb p hp
    rw [checkIndices] at hc
    simp only [Bool.not_eq_true', Bool.or_eq_false_iff,
      decide_eq_false_iff_not, not_lt, not_le] at hc
    refine Finset.mem_image.mpr ⟨(p.1.toNat, p.2.toNat), ?_, ?_⟩
    · rw [Finset.mem_product]
      constructor <;> (rw [Finset.mem_range]; omega)
    · obtain ⟨pr, pc⟩ := p
      simp only [Prod.mk.injEq]
      constructor <;> (simp at hc ⊢; omega)
  calc l.length = l.toFinset.card := h1.symm
    _ ≤ _ := Finset.card_le_card hsub
    _ ≤ (Finset.range b.rows ×ˢ Finset.range b.columns).card :=
        Finset.card_image_le
    _ = b.rows * b.columns := by
        rw [Finset.card_product, Finset.card_range, Finset.card_range]

/-- The loop's result does not change when more fuel is supplied, as
long as the fuel is at least `rows * columns - |seq|`: each iteration
pops a distinct in-bounds cell, so the queue empties within that many
steps.  In particular the `rows * columns + 1` fuel used by
`rippleSequence` behaves as the unbounded `while` loop of the source. -/
lemma rippleAux_fuel_stable (b : Board) :
    ∀ f k queue seq, (seq ++ queue).Nodup →
      (∀ p ∈ seq ++ queue, checkIndices b p.1 p.2 = true) →
      b.rows * b.columns - seq.length ≤ f →
      rippleAux b f queue seq = rippleAux b (f + k) queue seq := by
  intro f
  induction f with
  | zero =>
    intro k queue seq hnd hb hle
    cases queue with
    | nil => rw [rippleAux_nil, rippleAux_nil]
    | cons q rest =>
      exfalso
      have hlen := nodup_inbounds_length_le b (seq ++ q :: rest) hnd hb
      simp only [List.length_append, List.length_cons] at hlen
      omega
  | succ f ih =>
    intro k queue seq hnd hb hle
    cases queue with
    | nil => rw [rippleAux_nil, rippleAux_nil]
    | cons q rest =>
      have hlen := nodup_inbounds_length_le b (seq ++ q :: rest) hnd hb
      simp only [List.length_append, List.length_cons] at hlen
      have hshift : ((seq ++ [q]) ++ rest).Nodup := by
        rw [List.append_assoc]; exact hnd
      have hbshift : ∀ p ∈ (seq ++ [q]) ++ rest, checkIndices b p.1 p.2 = true := by
        intro p hp
        apply hb
        rw [List.append_assoc] at hp
        exact hp
      rw [show f + 1 + k = (f + k) + 1 by omega]
      simp only [rippleAux]
      split
      · exact ih k rest (seq ++ [q]) hshift hbshift
          (by simp only [List.length_append, List.length_singleton]; omega)
      · set new := ((getNeighbours b q).filter
          (fun p => isHiddenCh b p.1 p.2 == 'H')).filter
            (fun p => !(seq ++ [q]).contains p && !rest.contains p) with hnew
        have hnodupNew : new.Nodup :=
          ((nodup_getNeighbours b q).filter _).filter _
        have hdisj : ((seq ++ [q]) ++ rest).Disjoint new := by
          intro x hx hxn
          rw [hnew] at hxn
          simp only [List.mem_filter, Bool.and_eq_true, Bool.not_eq_true'] at hxn
          rcases List.mem_append.mp hx with hx1 | hx1
          · have hv := hxn.2.1
            rw [List.contains_eq_any_beq] at hv
            simp only [List.any_eq_false, beq_iff_eq] at hv
            exact hv x hx1 rfl
          · have hv := hxn.2.2
            rw [List.contains_eq_any_beq] at hv
            simp only [List.any_eq_false, beq_iff_eq] at hv
            exact hv x hx1 rfl
        have hfinal : ((seq ++ [q]) ++ (rest ++ new)).Nodup := by
          rw [← List.append_assoc]
          exact hshift.append hnodupNew hdisj
        have hbfinal : ∀ p ∈ (seq ++ [q]) ++ (rest ++ new),
            checkIndices b p.1 p.2 = true := by
          intro p hp
          rcases List.mem_append.mp hp with hp | hp
          · exact hbshift p (List.mem_append_left _ hp)
          · rcases List.mem_append.mp hp with hp | hp
            · exact hbshift p (List.mem_append_right _ hp)
            · rw [hnew] at hp
              simp only [List.mem_filter] at hp
              exact checkIndices_of_mem_getNeighbours hp.1.1
        exact ih k (rest ++ new) (seq ++ [q]) hfinal hbfinal
          (by simp only [List.length_append, List.length_singleton]; omega)

/-- C9: `ripple_sequence` performs no mutation (in this embedding it is
a pure function of the board, so two consecutive calls with the same
start on the same grid state return the same sequence), and no
coordinate appears twice within one returned sequence. -/
theorem claim_C9_no_mutation_no_dup (b : Board) (row column : Int)
    (h : checkIndices b row column = true) :
    ∃ l, rippleSequence b row column = .ok l ∧
      rippleSequence b row column = .ok l ∧ l.Nodup := by
  rw [rippleSequence, if_neg (by simp [h])]
  refine ⟨_, rfl, rfl, ?_⟩
  have hnodup : (rippleAux b (b.rows * b.columns + 1)
      [(row, column)] []).Nodup :=
    rippleAux_nodup b _ _ [] (by simp)
  exact (List.drop_sublist 1 _).nodup hnodup

/-- C9 at a concrete input: the 3×3 all-zero board with a revealed
centre. -/
theorem claim_C9_witness :
    checkIndices ⟨1, 2, [[('0', 'S'), ('1', 'H')]]⟩ 0 0 = true ∧
    ∃ l, rippleSequence ⟨1, 2, [[('0', 'S'), ('1', 'H')]]⟩ 0 0 = .ok l ∧
      rippleSequence ⟨1, 2, [[('0', 'S'), ('1', 'H')]]⟩ 0 0 = .ok l ∧
      l.Nodup :=
  ⟨by decide, claim_C9_no_mutation_no_dup _ 0 0 (by decide)⟩

/-! ## Cell-level lemmas about reading and writing the matrix -/

lemma checkIndices_iff (b : Board) (r c : Int) :
    checkIndices b r c = true ↔
      0 ≤ r ∧ r < (b.rows : Int) ∧ 0 ≤ c ∧ c < (b.columns : Int) := by
  rw [checkIndices]
  simp only [Bool.not_eq_true', Bool.or_eq_false_iff, decide_eq_false_iff_not,
    not_lt, not_le]
  constructor
  · intro h; omega
  · intro h; omega

lemma uncoverSet_eq_setCellB (b : Board) (r c : Int) :
    uncoverSet b r c = setCellB b r c ((getCell b r c).1, 'S') := rfl

lemma uncoverSet_rows (b : Board) (r c : Int) : (uncoverSet b r c).rows = b.rows := rfl

lemma uncoverSet_columns (b : Board) (r c : Int) :
    (uncoverSet b r c).columns = b.columns := rfl

lemma setCellB_rows (b : Board) (r c : Int) (v : Cell) :
    (setCellB b r c v).rows = b.rows := rfl

lemma setCellB_columns (b : Board) (r c : Int) (v : Cell) :
    (setCellB b r c v).columns = b.columns := rfl

lemma WF_setCellB (b : Board) (r c : Int) (v : Cell) (hwf : WF b)
    (h1 : checkIndices b r c = true) : WF (setCellB b r c v) := by
  obtain ⟨hlen, hrows⟩ := hwf
  rw [checkIndices_iff] at h1
  have hrn : r.toNat < b.board.length := by omega
  constructor
  · rw [setCellB, List.length_set]
    exact hlen
  · intro row hmem
    rw [setCellB] at hmem
    rcases List.mem_or_eq_of_mem_set hmem with hmem | hmem
    · exact hrows row hmem
    · rw [hmem, List.length_set, List.getD_eq_getElem _ _ hrn]
      exact hrows _ (List.getElem_mem hrn)

/-- Reading after writing: the written cell at the written position,
the old cell elsewhere. -/
lemma getCell_setCellB (b : Board) (r c r' c' : Int) (v : Cell) (hwf : WF b)
    (h1 : checkIndices b r c = true) (h2 : checkIndices b r' c' = true) :
    getCell (setCellB b r c v) r' c' =
      if r = r' ∧ c = c' then v else getCell b r' c' := by
  obtain ⟨hlen, hrows⟩ := hwf
  rw [checkIndices_iff] at h1 h2
  have hrn : r.toNat < b.board.length := by omega
  have hr'n : r'.toNat < b.board.length := by omega
  have hrowlen : (b.board[r.toNat]).length = b.columns :=
    hrows _ (List.getElem_mem hrn)
  have hrow'len : (b.board[r'.toNat]).length = b.columns :=
    hrows _ (List.getElem_mem hr'n)
  have hget : getCell b r' c' = (b.board[r'.toNat]).getD c'.toNat ('?', '?') := by
    rw [getCell, List.getD_eq_getElem _ _ hr'n]
  have hboard : (setCellB b r c v).board =
      b.board.set r.toNat ((b.board.getD r.toNat []).set c.toNat v) := rfl
  rw [getCell, hboard, List.getD_eq_getElem _ _ hrn]
  have hsetlen : r'.toNat < (b.board.set r.toNat
      (b.board[r.toNat].set c.toNat v)).length := by
    rwa [List.length_set]
  have houter : (b.board.set r.toNat
        (b.board[r.toNat].set c.toNat v)).getD r'.toNat [] =
      (b.board.set r.toNat
        (b.board[r.toNat].set c.toNat v))[r'.toNat] :=
    List.getD_eq_getElem _ _ _
  rw [houter, List.getElem_set]
  by_cases hrr : r.toNat = r'.toNat
  · have hr_eq : r = r' := by omega
    rw [if_pos hrr]
    have hcn : c'.toNat < (b.board[r.toNat]).length := by omega
    rw [List.getD_eq_getElem _ _ (by rw [List.length_set]; exact hcn),
      List.getElem_set]
    by_cases hcc : c.toNat = c'.toNat
    · have hc_eq : c = c' := by omega
      rw [if_pos hcc, if_pos ⟨hr_eq, hc_eq⟩]
    · have hc_ne : ¬ (c = c') := by omega
      rw [if_neg hcc, if_neg (by tauto), hget,
        List.getD_eq_getElem _ _ (by omega)]
      simp only [hrr]
  · have hr_ne : ¬ (r = r') := by omega
    rw [if_neg hrr, if_neg (by tauto), hget]

lemma WF_uncoverSet (b : Board) (r c : Int) (hwf : WF b)
    (h1 : checkIndices b r c = true) : WF (uncoverSet b r c) :=
  uncoverSet_eq_setCellB b r c ▸ WF_setCellB b r c _ hwf h1

/-- `uncover` never changes a cell's content character. -/
lemma getValue_uncoverSet (b : Board) (r c r' c' : Int) (hwf : WF b)
    (h1 : checkIndices b r c = true) (h2 : checkIndices b r' c' = true) :
    getValue (uncoverSet b r c) r' c' = getValue b r' c' := by
  rw [uncoverSet_eq_setCellB, getValue, getValue,
    getCell_setCellB b r c r' c' _ hwf h1 h2]
  split
  · next h => rw [h.1, h.2]
  · rfl

lemma isHiddenCh_uncoverSet_self (b : Board) (r c : Int) (hwf : WF b)
    (h1 : checkIndices b r c = true) :
    isHiddenCh (uncoverSet b r c) r c = 'S' := by
  rw [uncoverSet_eq_setCellB, isHiddenCh,
    getCell_setCellB b r c r c _ hwf h1 h1,
    if_pos (show r = r ∧ c = c from ⟨rfl, rfl⟩)]
  simp

lemma isHiddenCh_uncoverSet_other (b : Board) (r c r' c' : Int) (hwf : WF b)
    (h1 : checkIndices b r c = true) (h2 : checkIndices b r' c' = true)
    (hne : ¬ (r = r' ∧ c = c')) :
    isHiddenCh (uncoverSet b r c) r' c' = isHiddenCh b r' c' := by
  rw [uncoverSet_eq_setCellB, isHiddenCh, isHiddenCh,
    getCell_setCellB b r c r' c' _ hwf h1 h2, if_neg hne]

lemma isHiddenCh_cases (b : Board) (r c : Int) :
    isHiddenCh b r c = 'H' ∨ isHiddenCh b r c = 'S' := by
  rw [isHiddenCh]
  split
  · exact Or.inl rfl
  · exact Or.inr rfl

lemma uncover_eq_ok (b : Board) (r c : Int)
    (h1 : checkIndices b r c = true) (hh : isHiddenCh b r c = 'H') :
    uncover b r c = .ok (uncoverSet b r c) := by
  rw [uncover, h1]
  simp only [Bool.not_true, Bool.false_eq_true, if_false]
  rw [hh]
  simp

/-- The only way `uncover` succeeds. -/
lemma uncover_ok_inv (b : Board) (r c : Int) (b' : Board)
    (h : uncover b r c = .ok b') :
    checkIndices b r c = true ∧ isHiddenCh b r c = 'H' ∧
      b' = uncoverSet b r c := by
  rw [uncover] at h
  split at h
  · simp at h
  · split at h
    · simp at h
    · next h1 h2 =>
      refine ⟨by simpa using h1, ?_, by simpa using h.symm⟩
      rcases isHiddenCh_cases b r c with hc | hc
      · exact hc
      · exact absurd hc h2

/-! ## make_move -/

/-- A failing `uncover` propagates out of `make_move` unchanged (and,
in this functional embedding, no board is produced: nothing mutates). -/
lemma makeMove_error (b : Board) (row column : Int) (e : MoveErr)
    (he : uncover b row column = .error e) :
    makeMove b row column = .error e := by
  rw [makeMove, he]
  rfl

/-- `make_move` on a cell whose value is a mine or a nonzero count:
return immediately after the uncover, no cascade. -/
lemma makeMove_nonzero (b b1 : Board) (row column : Int)
    (h1 : uncover b row column = .ok b1)
    (hv : getValue b1 row column ≠ '0') :
    makeMove b row column = .ok (b1, getValue b1 row column) := by
  rw [makeMove, h1]
  show (if getValue b1 row column ≠ '0' then _ else _) = _
  rw [if_pos hv]
  rfl

/-- `make_move` on a `'0'` cell: compute the ripple sequence and
uncover each of its cells in order. -/
lemma makeMove_zero (b b1 b2 : Board) (row column : Int) (seq : List Pos)
    (h1 : uncover b row column = .ok b1)
    (hv : getValue b1 row column = '0')
    (h2 : rippleSequence b1 row column = .ok seq)
    (h3 : seq.foldlM (fun bb (p : Pos) => uncover bb p.1 p.2) b1 = .ok b2) :
    makeMove b row column = .ok (b2, getValue b1 row column) := by
  rw [makeMove, h1]
  show (if getValue b1 row column ≠ '0' then _ else _) = _
  rw [if_neg (by simp [hv])]
  show (rippleSequence b1 row column >>= _) = _
  rw [h2]
  show (seq.foldlM (fun bb (p : Pos) => uncover bb p.1 p.2) b1 >>= _) = _
  rw [h3]
  rfl

/-- When every cell of `l` is in bounds, hidden, and distinct, the
sequence of `uncover` calls all succeed and compute the fold of the
pure per-cell update. -/
lemma foldlM_uncover_ok (l : List Pos) :
    ∀ b : Board, WF b → l.Nodup →
      (∀ p ∈ l, checkIndices b p.1 p.2 = true ∧ isHiddenCh b p.1 p.2 = 'H') →
      l.foldlM (fun bb (p : Pos) => uncover bb p.1 p.2) b =
        .ok (l.foldl (fun bb (p : Pos) => uncoverSet bb p.1 p.2) b) := by
  induction l with
  | nil => intro b _ _ _; rfl
  | cons p ps ih =>
    intro b hwf hnd hmem
    obtain ⟨hin, hh⟩ := hmem p (List.mem_cons_self p ps)
    rw [List.foldlM_cons, uncover_eq_ok b p.1 p.2 hin hh, List.foldl_cons]
    have hbind : (Except.ok (uncoverSet b p.1 p.2) >>=
        fun b' => ps.foldlM (fun bb (p : Pos) => uncover bb p.1 p.2) b') =
        ps.foldlM (fun bb (p : Pos) => uncover bb p.1 p.2)
          (uncoverSet b p.1 p.2) := rfl
    rw [hbind]
    apply ih
    · exact WF_uncoverSet b p.1 p.2 hwf hin
    · exact (List.nodup_cons.mp hnd).2
    · intro q hq
      obtain ⟨hinq, hhq⟩ := hmem q (List.mem_cons_of_mem p hq)
      have hne : ¬ (p.1 = q.1 ∧ p.2 = q.2) := by
        intro hc
        exact (List.nodup_cons.mp hnd).1
          (by rw [show p = q from Prod.ext hc.1 hc.2]; exact hq)
      exact ⟨hinq, by
        rw [isHiddenCh_uncoverSet_other b p.1 p.2 q.1 q.2 hwf hin hinq hne]
        exact hhq⟩

/-- The ripple loop only ever appends to the accumulated sequence. -/
lemma rippleAux_prefix (b : Board) :
    ∀ fuel queue seq, ∃ t, rippleAux b fuel queue seq = seq ++ t := by
  intro fuel
  induction fuel with
  | zero => intro queue seq; exact ⟨[], by rw [rippleAux_zero]; simp⟩
  | succ f ih =>
    intro queue seq
    cases queue with
    | nil => exact ⟨[], by rw [rippleAux_nil]; simp⟩
    | cons q rest =>
      simp only [rippleAux]
      split
      · obtain ⟨t, ht⟩ := ih rest (seq ++ [q])
        exact ⟨[q] ++ t, by rw [ht]; simp⟩
      · obtain ⟨t, ht⟩ := ih (rest ++ _) (seq ++ [q])
        exact ⟨[q] ++ t, by rw [ht]; simp⟩

lemma rippleAux_cons_head (b : Board) (f : Nat) (q : Pos) (rest seq : List Pos) :
    ∃ t, rippleAux b (f + 1) (q :: rest) seq = seq ++ [q] ++ t := by
  simp only [rippleAux]
  split
  · obtain ⟨t, ht⟩ := rippleAux_prefix b f rest (seq ++ [q])
    exact ⟨t, by rw [ht]⟩
  · obtain ⟨t, ht⟩ := rippleAux_prefix b f (rest ++ _) (seq ++ [q])
    exact ⟨t, by rw [ht]⟩

/-- Any sequence of pure uncover updates keeps a revealed cell
revealed. -/
lemma foldl_uncoverSet_keeps_S (l : List Pos) :
    ∀ b : Board, WF b →
      (∀ p ∈ l, checkIndices b p.1 p.2 = true) →
      ∀ r c : Int, checkIndices b r c = true → isHiddenCh b r c = 'S' →
      isHiddenCh (l.foldl (fun bb (p : Pos) => uncoverSet bb p.1 p.2) b) r c = 'S' := by
  induction l with
  | nil => intro b _ _ r c _ hS; exact hS
  | cons p ps ih =>
    intro b hwf hb r c hrc hS
    rw [List.foldl_cons]
    have hp := hb p (List.mem_cons_self p ps)
    refine ih (uncoverSet b p.1 p.2) (WF_uncoverSet b p.1 p.2 hwf hp)
      (fun q hq => hb q (List.mem_cons_of_mem p hq)) r c hrc ?_
    by_cases he : p.1 = r ∧ p.2 = c
    · rw [he.1, he.2]
      exact isHiddenCh_uncoverSet_self b r c hwf (he.1 ▸ he.2 ▸ hp)
    · rw [isHiddenCh_uncoverSet_other b p.1 p.2 r c hwf hp hrc he]
      exact hS

/-- The full behaviour of `make_move`: see `claim_C5_make_move_flow`. -/
lemma makeMove_flow (b : Board) (hwf : WF b) :
    (∀ row column : Int, checkIndices b row column = true →
      isHiddenCh b row column = 'H' →
      ∃ b', makeMove b row column = .ok (b', getValue b row column) ∧
        isHiddenCh b' row column = 'S' ∧
        (getValue b row column ≠ '0' → b' = uncoverSet b row column) ∧
        (getValue b row column = '0' →
          ∃ seq, rippleSequence (uncoverSet b row column) row column = .ok seq ∧
            b' = seq.foldl (fun bb (p : Pos) => uncoverSet bb p.1 p.2)
              (uncoverSet b row column))) ∧
    (∀ row column : Int, ∀ e : MoveErr, uncover b row column = .error e →
      makeMove b row column = .error e) := by
  constructor
  · intro row column hin hh
    have huok : uncover b row column = .ok (uncoverSet b row column) :=
      uncover_eq_ok b row column hin hh
    have hwf1 : WF (uncoverSet b row column) :=
      WF_uncoverSet b row column hwf hin
    have hval : getValue (uncoverSet b row column) row column =
        getValue b row column :=
      getValue_uncoverSet b row column row column hwf hin hin
    have hchk1 : checkIndices (uncoverSet b row column) row column = true := hin
    by_cases hv : getValue b row column = '0'
    · -- cascade case
      have hv1 : getValue (uncoverSet b row column) row column = '0' := by
        rw [hval]; exact hv
      have hrip : rippleSequence (uncoverSet b row column) row column =
          .ok ((rippleAux (uncoverSet b row column)
            ((uncoverSet b row column).rows * (uncoverSet b row column).columns + 1)
            [(row, column)] []).drop 1) := by
        rw [rippleSequence, if_neg (by simp [hchk1])]
      obtain ⟨t, ht⟩ := rippleAux_cons_head (uncoverSet b row column)
        ((uncoverSet b row column).rows * (uncoverSet b row column).columns)
        (row, column) [] []
      have htl : (rippleAux (uncoverSet b row column)
          ((uncoverSet b row column).rows * (uncoverSet b row column).columns + 1)
          [(row, column)] []).drop 1 = t := by
        rw [ht]; simp
      have hnodup : ((row, column) :: t).Nodup := by
        have := rippleAux_nodup (uncoverSet b row column)
          ((uncoverSet b row column).rows * (uncoverSet b row column).columns + 1)
          [(row, column)] [] (by simp)
        rw [ht] at this
        simpa using this
      have hmemt : ∀ p ∈ t, checkIndices (uncoverSet b row column) p.1 p.2 = true ∧
          isHiddenCh (uncoverSet b row column) p.1 p.2 = 'H' := by
        intro p hp
        have hpres : p ∈ rippleAux (uncoverSet b row column)
            ((uncoverSet b row column).rows * (uncoverSet b row column).columns + 1)
            [(row, column)] [] := by
          rw [ht]; simp [hp]
        rcases rippleAux_mem (uncoverSet b row column) _ _ _ _ hpres with
          h0 | h0 | h0
        · exact absurd h0 (List.not_mem_nil p)
        · simp only [List.mem_singleton] at h0
          exact absurd (h0 ▸ hp) (List.nodup_cons.mp hnodup).1
        · exact h0
      have hfold := foldlM_uncover_ok t (uncoverSet b row column) hwf1
        (List.nodup_cons.mp hnodup).2 hmemt
      refine ⟨t.foldl (fun bb (p : Pos) => uncoverSet bb p.1 p.2)
        (uncoverSet b row column), ?_, ?_, fun hne => absurd hv hne,
        fun _ => ⟨t, by rw [hrip, htl], rfl⟩⟩
      · have hmm := makeMove_zero b (uncoverSet b row column) _ row column t huok
          hv1 (by rw [hrip, htl]) hfold
        rw [hval] at hmm
        exact hmm
      · exact foldl_uncoverSet_keeps_S t (uncoverSet b row column) hwf1
          (fun p hp => (hmemt p hp).1) row column hchk1
          (isHiddenCh_uncoverSet_self b row column hwf hin)
    · -- immediate-return case
      have hmm := makeMove_nonzero b (uncoverSet b row column) row column huok
        (by rw [hval]; exact hv)
      rw [hval] at hmm
      exact ⟨uncoverSet b row column, hmm,
        isHiddenCh_uncoverSet_self b row column hwf hin,
        fun _ => rfl, fun h0 => absurd h0 hv⟩
  · intro row column e he
    exact makeMove_error b row column e he

/-- C5: for every in-bounds hidden cell, `make_move` reveals that cell
and returns its value; a mine or nonzero value returns immediately with
no cascade; a `'0'` value computes the ripple sequence on the board
with the start already revealed and uncovers exactly those cells in
that order; and a failing initial uncover propagates its error with no
cell changed (the embedding produces no board on the error path). -/
theorem claim_C5_make_move_flow (b : Board) (hwf : WF b) :
    (∀ row column : Int, checkIndices b row column = true →
      isHiddenCh b row column = 'H' →
      ∃ b', makeMove b row column = .ok (b', getValue b row column) ∧
        isHiddenCh b' row column = 'S' ∧
        (getValue b row column ≠ '0' → b' = uncoverSet b row column) ∧
        (getValue b row column = '0' →
          ∃ seq, rippleSequence (uncoverSet b row column) row column = .ok seq ∧
            b' = seq.foldl (fun bb (p : Pos) => uncoverSet bb p.1 p.2)
              (uncoverSet b row column))) ∧
    (∀ row column : Int, ∀ e : MoveErr, uncover b row column = .error e →
      makeMove b row column = .error e) :=
  makeMove_flow b hwf

/-- C5 at a concrete input: a 1×2 board, hidden zero cell at the
origin; the move reveals it, cascades to the single neighbour, and
returns `'0'`. -/
theorem claim_C5_witness :
    ∃ b', makeMove ⟨1, 2, [[('0', 'H'), ('1', 'H')]]⟩ 0 0 =
        .ok (b', getValue ⟨1, 2, [[('0', 'H'), ('1', 'H')]]⟩ 0 0) ∧
      isHiddenCh b' 0 0 = 'S' ∧
      (getValue ⟨1, 2, [[('0', 'H'), ('1', 'H')]]⟩ 0 0 ≠ '0' →
        b' = uncoverSet ⟨1, 2, [[('0', 'H'), ('1', 'H')]]⟩ 0 0) ∧
      (getValue ⟨1, 2, [[('0', 'H'), ('1', 'H')]]⟩ 0 0 = '0' →
        ∃ seq, rippleSequence (uncoverSet ⟨1, 2, [[('0', 'H'), ('1', 'H')]]⟩ 0 0)
            0 0 = .ok seq ∧
          b' = seq.foldl (fun bb (p : Pos) => uncoverSet bb p.1 p.2)
            (uncoverSet ⟨1, 2, [[('0', 'H'), ('1', 'H')]]⟩ 0 0)) :=
  (claim_C5_make_move_flow ⟨1, 2, [[('0', 'H'), ('1', 'H')]]⟩ (by decide)).1
    0 0 (by decide) (by decide)

/-! ## Status preservation lemmas -/

lemma isHiddenCh_eq_H_iff (b : Board) (r c : Int) :
    isHiddenCh b r c = 'H' ↔ (getCell b r c).2 = 'H' := by
  rw [isHiddenCh]
  split
  · next h => simp [h]
  · next h => simp [h]

lemma getCell_eq_getElem (b : Board) (r c : Int) (hwf : WF b)
    (hin : checkIndices b r c = true) :
    ∃ (hr : r.toNat < b.board.length)
      (hc : c.toNat < (b.board[r.toNat]).length),
      getCell b r c = (b.board[r.toNat])[c.toNat] := by
  obtain ⟨hlen, hrows⟩ := hwf
  rw [checkIndices_iff] at hin
  have hr : r.toNat < b.board.length := by omega
  have hc : c.toNat < (b.board[r.toNat]).length := by
    rw [hrows _ (List.getElem_mem hr)]; omega
  exact ⟨hr, hc, by rw [getCell, List.getD_eq_getElem _ _ hr,
    List.getD_eq_getElem _ _ hc]⟩

lemma getCell_mem_flatten (b : Board) (r c : Int) (hwf : WF b)
    (hin : checkIndices b r c = true) :
    getCell b r c ∈ b.board.flatten := by
  obtain ⟨hr, hc, hcell⟩ := getCell_eq_getElem b r c hwf hin
  rw [hcell, List.mem_flatten]
  exact ⟨_, List.getElem_mem hr, List.getElem_mem hc⟩

/-- Under well-formedness, "some mine is revealed" is a statement about
in-bounds cell reads. -/
lemma anyRevealedMine_iff (b : Board) (hwf : WF b) :
    anyRevealedMine b = true ↔
      ∃ r c : Int, checkIndices b r c = true ∧
        (getCell b r c).1 = '*' ∧ (getCell b r c).2 ≠ 'H' := by
  obtain ⟨hlen, hrows⟩ := hwf
  constructor
  · intro h
    rw [anyRevealedMine, List.any_eq_true] at h
    obtain ⟨x, hx, hpx⟩ := h
    rw [List.mem_flatten] at hx
    obtain ⟨row, hrow, hxrow⟩ := hx
    obtain ⟨i, hi, hieq⟩ := List.mem_iff_getElem.mp hrow
    obtain ⟨j, hj, hjeq⟩ := List.mem_iff_getElem.mp hxrow
    simp only [Bool.and_eq_true, bne_iff_ne, beq_iff_eq] at hpx
    refine ⟨(i : Int), (j : Int), ?_, ?_⟩
    · rw [checkIndices_iff]
      have : row.length = b.columns := hrows _ hrow
      constructor
      · omega
      · refine ⟨by omega, by omega, by omega⟩
    · have hcell : getCell b (i : Int) (j : Int) = x := by
        have hbb : b.board.getD i [] = row := by
          rw [List.getD_eq_getElem _ _ hi]; exact hieq
        rw [getCell]
        simp only [Int.toNat_natCast]
        rw [hbb, List.getD_eq_getElem _ _ hj]
        exact hjeq
      rw [hcell]
      exact ⟨hpx.2, hpx.1⟩
  · intro ⟨r, c, hin, hm, hrev⟩
    rw [anyRevealedMine, List.any_eq_true]
    refine ⟨getCell b r c, getCell_mem_flatten b r c ⟨hlen, hrows⟩ hin, ?_⟩
    simp only [Bool.and_eq_true, bne_iff_ne, beq_iff_eq]
    exact ⟨hrev, hm⟩

/-- Under well-formedness, "every non-mine cell is revealed" gives a
fact about each in-bounds cell. -/
lemma allNonMineRevealed_cell (b : Board) (hwf : WF b)
    (h : allNonMineRevealed b = true) (r c : Int)
    (hin : checkIndices b r c = true) :
    (getCell b r c).1 = '*' ∨ (getCell b r c).2 ≠ 'H' := by
  rw [allNonMineRevealed, List.all_eq_true] at h
  have := h (getCell b r c) (getCell_mem_flatten b r c hwf hin)
  simp only [Bool.or_eq_true, beq_iff_eq, bne_iff_ne] at this
  exact this

lemma statusSpec_eq_lose_iff (b : Board) :
    statusSpec b = .Lose ↔ anyRevealedMine b = true := by
  rw [statusSpec]
  split_ifs <;> simp_all

lemma statusSpec_eq_win (b : Board) (h : statusSpec b = .Win) :
    anyRevealedMine b = false ∧ allNonMineRevealed b = true := by
  rw [statusSpec] at h
  split_ifs at h <;> simp_all

/-- Uncovering a cell cannot un-reveal a revealed mine. -/
lemma anyRevealedMine_uncoverSet (b : Board) (r c : Int) (hwf : WF b)
    (hin : checkIndices b r c = true) (h : anyRevealedMine b = true) :
    anyRevealedMine (uncoverSet b r c) = true := by
  obtain ⟨r', c', hin', hm, hrev⟩ := (anyRevealedMine_iff b hwf).mp h
  refine (anyRevealedMine_iff _ (WF_uncoverSet b r c hwf hin)).mpr
    ⟨r', c', hin', ?_⟩
  rw [uncoverSet_eq_setCellB, getCell_setCellB b r c r' c' _ hwf hin hin']
  by_cases he : r = r' ∧ c = c'
  · rw [if_pos he]
    constructor
    · show (getCell b r c).1 = '*'
      rw [he.1, he.2]; exact hm
    · simp
  · rw [if_neg he]
    exact ⟨hm, hrev⟩

lemma foldl_uncoverSet_keeps_mine (l : List Pos) :
    ∀ b : Board, WF b → (∀ p ∈ l, checkIndices b p.1 p.2 = true) →
      anyRevealedMine b = true →
      anyRevealedMine
        (l.foldl (fun bb (p : Pos) => uncoverSet bb p.1 p.2) b) = true := by
  induction l with
  | nil => intro b _ _ h; exact h
  | cons p ps ih =>
    intro b hwf hb h
    rw [List.foldl_cons]
    have hp := hb p (List.mem_cons_self p ps)
    exact ih (uncoverSet b p.1 p.2) (WF_uncoverSet b p.1 p.2 hwf hp)
      (fun q hq => hb q (List.mem_cons_of_mem p hq))
      (anyRevealedMine_uncoverSet b p.1 p.2 hwf hp h)

lemma WF_foldl_uncoverSet (l : List Pos) :
    ∀ b : Board, WF b → (∀ p ∈ l, checkIndices b p.1 p.2 = true) →
      WF (l.foldl (fun bb (p : Pos) => uncoverSet bb p.1 p.2) b) := by
  induction l with
  | nil => intro b hwf _; exact hwf
  | cons p ps ih =>
    intro b hwf hb
    rw [List.foldl_cons]
    exact ih (uncoverSet b p.1 p.2)
      (WF_uncoverSet b p.1 p.2 hwf (hb p (List.mem_cons_self p ps)))
      (fun q hq => hb q (List.mem_cons_of_mem p hq))

lemma uncover_already (b : Board) (r c : Int)
    (hin : checkIndices b r c = true) (hS : isHiddenCh b r c = 'S') :
    uncover b r c = .error .illegalMove := by
  rw [uncover, hin]
  simp only [Bool.not_true, Bool.false_eq_true, if_false]
  rw [hS]
  simp

/-- Inversion for a successful `ripple_sequence`. -/
lemma rippleSequence_ok_inv (b : Board) (r c : Int) (l : List Pos)
    (h : rippleSequence b r c = .ok l) :
    checkIndices b r c = true ∧
      l = (rippleAux b (b.rows * b.columns + 1) [(r, c)] []).drop 1 := by
  rw [rippleSequence] at h
  split at h
  · simp at h
  · next hc =>
    refine ⟨by simpa using hc, ?_⟩
    simpa using h.symm

lemma uncover_out_of_bounds (b : Board) (r c : Int)
    (hin : checkIndices b r c = false) :
    uncover b r c = .error .illegalIndices := by
  rw [uncover, hin]
  simp

/-- C2 counterexample: on a won 1×2 board the mine cell is still
hidden, so `make_move` on it succeeds and flips the status from `Win`
to `Lose`; the claim that no move can change a `Win` status fails. -/
theorem claim_C2_counterexample :
    getStatus ⟨1, 2, [[('1', 'S'), ('*', 'H')]]⟩ = .Win ∧
    makeMove ⟨1, 2, [[('1', 'S'), ('*', 'H')]]⟩ 0 1 =
      .ok (⟨1, 2, [[('1', 'S'), ('*', 'S')]]⟩, '*') ∧
    getStatus ⟨1, 2, [[('1', 'S'), ('*', 'S')]]⟩ = .Lose := by
  refine ⟨rfl, ?_, rfl⟩
  rfl

/-- C2 (amended): once `get_status` is `Lose`, every `make_move` either
fails or leaves the status `Lose`; a move on an already-revealed cell
fails with `IllegalMove` rather than being silently ignored; but from a
`Win` state a move is either a failure or reveals a hidden mine and
changes the status to `Lose` (a `Win` is not preserved). -/
theorem claim_C2_amended (b : Board) (hwf : WF b) :
    (getStatus b = .Lose → ∀ row column : Int,
      (∃ e, makeMove b row column = .error e) ∨
      (∃ b' v, makeMove b row column = .ok (b', v) ∧ getStatus b' = .Lose)) ∧
    (∀ row column : Int, checkIndices b row column = true →
      isHiddenCh b row column = 'S' →
      makeMove b row column = .error .illegalMove) ∧
    (getStatus b = .Win → ∀ row column : Int,
      (∃ e, makeMove b row column = .error e) ∨
      (∃ b', makeMove b row column = .ok (b', '*') ∧ getStatus b' = .Lose)) := by
  refine ⟨?_, ?_, ?_⟩
  · intro hL row column
    by_cases hin : checkIndices b row column = true
    · rcases isHiddenCh_cases b row column with hH | hS
      · obtain ⟨b', hok, hSb', hnz, hz⟩ := (makeMove_flow b hwf).1 row column hin hH
        right
        refine ⟨b', getValue b row column, hok, ?_⟩
        have hmine : anyRevealedMine b = true := by
          rw [getStatus_eq_statusSpec] at hL
          exact (statusSpec_eq_lose_iff b).mp hL
        have hunc : anyRevealedMine (uncoverSet b row column) = true :=
          anyRevealedMine_uncoverSet b row column hwf hin hmine
        by_cases hv : getValue b row column = '0'
        · obtain ⟨seq, hseq, hb'⟩ := hz hv
          obtain ⟨hchk1, hseqeq⟩ := rippleSequence_ok_inv _ _ _ _ hseq
          have hmemseq : ∀ p ∈ seq,
              checkIndices (uncoverSet b row column) p.1 p.2 = true := by
            intro p hp
            rw [hseqeq] at hp
            have hp' := (List.drop_sublist 1 _).mem hp
            rcases rippleAux_mem (uncoverSet b row column) _ _ _ _ hp' with
              h0 | h0 | h0
            · exact absurd h0 (List.not_mem_nil p)
            · simp only [List.mem_singleton] at h0
              rw [h0]
              exact hin
            · exact h0.1
          rw [hb', getStatus_eq_statusSpec, statusSpec_eq_lose_iff]
          exact foldl_uncoverSet_keeps_mine seq (uncoverSet b row column)
            (WF_uncoverSet b row column hwf hin) hmemseq hunc
        · rw [hnz hv, getStatus_eq_statusSpec, statusSpec_eq_lose_iff]
          exact hunc
      · exact Or.inl ⟨.illegalMove,
          makeMove_error b row column _ (uncover_already b row column hin hS)⟩
    · exact Or.inl ⟨.illegalIndices, makeMove_error b row column _
        (uncover_out_of_bounds b row column (by simpa using hin))⟩
  · intro row column hin hS
    exact makeMove_error b row column _ (uncover_already b row column hin hS)
  · intro hW row column
    by_cases hin : checkIndices b row column = true
    · rcases isHiddenCh_cases b row column with hH | hS
      · obtain ⟨hnoMine, hall⟩ := statusSpec_eq_win b
          (by rw [← getStatus_eq_statusSpec]; exact hW)
        have hcellH : (getCell b row column).2 = 'H' :=
          (isHiddenCh_eq_H_iff b row column).mp hH
        have hm : (getCell b row column).1 = '*' := by
          rcases allNonMineRevealed_cell b hwf hall row column hin with h | h
          · exact h
          · exact absurd hcellH h
        have hvm : getValue b row column = '*' := hm
        obtain ⟨b', hok, hSb', hnz, _⟩ := (makeMove_flow b hwf).1 row column hin hH
        have hb' := hnz (by rw [hvm]; decide)
        rw [hvm] at hok
        right
        refine ⟨b', hok, ?_⟩
        rw [hb', getStatus_eq_statusSpec, statusSpec_eq_lose_iff]
        refine (anyRevealedMine_iff _ (WF_uncoverSet b row column hwf hin)).mpr
          ⟨row, column, hin, ?_⟩
        have hcell : getCell (uncoverSet b row column) row column =
            ((getCell b row column).1, 'S') := by
          rw [uncoverSet_eq_setCellB,
            getCell_setCellB b row column row column _ hwf hin hin,
            if_pos (show row = row ∧ column = column from ⟨rfl, rfl⟩)]
        rw [hcell]
        exact ⟨hm, by simp⟩
      · exact Or.inl ⟨.illegalMove,
          makeMove_error b row column _ (uncover_already b row column hin hS)⟩
    · exact Or.inl ⟨.illegalIndices, makeMove_error b row column _
        (uncover_out_of_bounds b row column (by simpa using hin))⟩

/-- C2 amended, at a concrete input: a lost 1×2 board; a further move
on the hidden cell keeps the status `Lose`. -/
theorem claim_C2_amended_witness :
    WF (⟨1, 2, [[('*', 'S'), ('1', 'H')]]⟩ : Board) ∧
    getStatus (⟨1, 2, [[('*', 'S'), ('1', 'H')]]⟩ : Board) = .Lose ∧
    ((∃ e, makeMove ⟨1, 2, [[('*', 'S'), ('1', 'H')]]⟩ 0 0 = .error e) ∨
      (∃ b' v, makeMove ⟨1, 2, [[('*', 'S'), ('1', 'H')]]⟩ 0 0 = .ok (b', v) ∧
        getStatus b' = .Lose)) :=
  ⟨by decide, rfl,
    (claim_C2_amended ⟨1, 2, [[('*', 'S'), ('1', 'H')]]⟩ (by decide)).1 rfl 0 0⟩

/-! ## Round-trip of save and load -/

lemma validX_not_space (x : Char) (h : validX.contains x = true) :
    isPySpace x = false := by
  rw [validX] at h
  rw [List.contains_eq_any_beq] at h
  simp only [List.any_eq_true, beq_iff_eq] at h
  obtain ⟨y, hy, hxy⟩ := h
  subst hxy
  fin_cases hy <;> rfl

lemma validY_not_space (y : Char) (h : validY.contains y = true) :
    isPySpace y = false := by
  rw [validY] at h
  rw [List.contains_eq_any_beq] at h
  simp only [List.any_eq_true, beq_iff_eq] at h
  obtain ⟨z, hz, hyz⟩ := h
  subst hyz
  fin_cases hz <;> rfl

lemma saveRowLine_acc (row : List Cell) :
    ∀ acc : List Char,
      row.foldl (fun acc c => acc ++ [c.1, c.2, ' ']) acc =
        acc ++ (row.map (fun c => [c.1, c.2, ' '])).flatten := by
  induction row with
  | nil => intro acc; simp
  | cons c rest ih =>
    intro acc
    rw [List.foldl_cons, ih, List.map_cons, List.flatten_cons]
    simp

lemma saveRowLine_eq_core (row : List Cell) (hne : row ≠ []) :
    saveRowLine row = rowCore row ++ [' '] := by
  induction row with
  | nil => exact absurd rfl hne
  | cons c rest ih =>
    cases rest with
    | nil => rfl
    | cons c2 rest2 =>
      have hrest : saveRowLine (c2 :: rest2) = rowCore (c2 :: rest2) ++ [' '] :=
        ih (List.cons_ne_nil c2 rest2)
      rw [saveRowLine, saveRowLine_acc, rowCore]
      rw [saveRowLine, saveRowLine_acc] at hrest
      simp only [List.nil_append] at hrest ⊢
      rw [List.map_cons, List.flatten_cons, hrest]
      · simp
      · exact List.cons_ne_nil c2 rest2

lemma rowCore_ne_nil (row : List Cell) (hne : row ≠ []) : rowCore row ≠ [] := by
  cases row with
  | nil => exact absurd rfl hne
  | cons c rest => cases rest <;> simp [rowCore]

lemma rowCore_head? (row : List Cell) (hne : row ≠ []) :
    ∃ c ∈ row, (rowCore row).head? = some c.1 := by
  cases row with
  | nil => exact absurd rfl hne
  | cons c rest =>
    cases rest with
    | nil => exact ⟨c, by simp, rfl⟩
    | cons c2 rest2 => exact ⟨c, by simp, rfl⟩

lemma rowCore_getLast? (row : List Cell) (hne : row ≠ []) :
    ∃ c ∈ row, (rowCore row).getLast? = some c.2 := by
  induction row with
  | nil => exact absurd rfl hne
  | cons c rest ih =>
    cases rest with
    | nil => exact ⟨c, by simp, rfl⟩
    | cons c2 rest2 =>
      obtain ⟨d, hd, hlast⟩ := ih (List.cons_ne_nil c2 rest2)
      refine ⟨d, by simp [List.mem_cons] at hd ⊢; tauto, ?_⟩
      rw [rowCore, List.getLast?_append_of_ne_nil _
        (rowCore_ne_nil (c2 :: rest2) (List.cons_ne_nil c2 rest2))]
      · exact hlast
      · exact List.cons_ne_nil c2 rest2

/-- Stripping a line that starts and ends with non-whitespace and
carries one trailing space recovers the line without the space. -/
lemma pyStrip_core_space (l : List Char) (hne : l ≠ [])
    (hh : ∀ x, l.head? = some x → isPySpace x = false)
    (hl : ∀ x, l.getLast? = some x → isPySpace x = false) :
    pyStrip (l ++ [' ']) = l := by
  cases l with
  | nil => exact absurd rfl hne
  | cons a l' =>
    have ha : isPySpace a = false := hh a rfl
    rw [pyStrip]
    rw [show (a :: l') ++ [' '] = a :: (l' ++ [' ']) by simp]
    rw [List.dropWhile_cons, if_neg (by simp [ha])]
    have hrev : (a :: (l' ++ [' '])).reverse = ' ' :: (a :: l').reverse := by
      rw [show a :: (l' ++ [' ']) = (a :: l') ++ [' '] by simp]
      rw [List.reverse_append]
      rfl
    rw [hrev, List.dropWhile_cons, if_pos (by rfl)]
    obtain ⟨y, rest, hyrest⟩ : ∃ y rest, (a :: l').reverse = y :: rest := by
      cases h : (a :: l').reverse with
      | nil => exact absurd (List.reverse_eq_nil_iff.mp h) (by simp)
      | cons y rest => exact ⟨y, rest, rfl⟩
    have hy : isPySpace y = false := by
      apply hl
      rw [← List.head?_reverse, hyrest]
      rfl
    rw [hyrest, List.dropWhile_cons, if_neg (by simp [hy]), ← hyrest,
      List.reverse_reverse]

/-- A token without spaces splits to itself. -/
lemma pySplitSp_no_space (t : List Char) (h : ' ' ∉ t) :
    pySplitSp t = [t] := by
  induction t with
  | nil => rfl
  | cons c rest ih =>
    have hcne : c ≠ ' ' := by
      intro he
      exact h (by rw [he]; exact List.mem_cons_self _ _)
    have hc : (c == ' ') = false := by simpa using hcne
    simp only [pySplitSp, hc, Bool.false_eq_true, if_false]
    rw [ih (fun hm => h (List.mem_cons_of_mem c hm))]

lemma pySplitSp_rowCore (row : List Cell)
    (hv : ∀ c ∈ row, validCell c = true) (hne : row ≠ []) :
    pySplitSp (rowCore row) = row.map (fun c => [c.1, c.2]) := by
  induction row with
  | nil => exact absurd rfl hne
  | cons c rest ih =>
    have hc := hv c (List.mem_cons_self c rest)
    rw [validCell, Bool.and_eq_true] at hc
    have hc1 : isPySpace c.1 = false := validX_not_space c.1 hc.1
    have hc2 : isPySpace c.2 = false := validY_not_space c.2 hc.2
    have hnsp : ' ' ∉ [c.1, c.2] := by
      intro hm
      rcases List.mem_cons.mp hm with he | hm2
      · rw [← he] at hc1; simp [isPySpace] at hc1
      · rcases List.mem_cons.mp hm2 with he | h3
        · rw [← he] at hc2; simp [isPySpace] at hc2
        · exact absurd h3 (List.not_mem_nil _)
    cases rest with
    | nil =>
      rw [rowCore, List.map_cons, List.map_nil]
      exact pySplitSp_no_space [c.1, c.2] hnsp
    | cons c2 rest2 =>
      rw [rowCore, show ([c.1, c.2, ' '] : List Char) ++ rowCore (c2 :: rest2) =
        [c.1, c.2] ++ ' ' :: rowCore (c2 :: rest2) by simp]
      · rw [pySplitSp_append_space, pySplitSp_no_space [c.1, c.2] hnsp,
          ih (fun d hd => hv d (List.mem_cons_of_mem c hd))
            (List.cons_ne_nil c2 rest2)]
        rfl
      · exact List.cons_ne_nil c2 rest2

lemma validateRow_tokens (row : List Cell)
    (hv : ∀ c ∈ row, validCell c = true) :
    validateRow (row.map (fun c => [c.1, c.2])) = .ok row := by
  induction row with
  | nil => rfl
  | cons c rest ih =>
    have hc := hv c (List.mem_cons_self c rest)
    rw [validCell] at hc
    rw [List.map_cons, validateRow, if_pos hc,
      ih (fun d hd => hv d (List.mem_cons_of_mem c hd))]

/-- Loading the serialized rows of a valid matrix succeeds and returns
exactly those rows. -/
lemma loadGo_save (rowsN colsN : Nat) (hcols : 0 < colsN) :
    ∀ (brs acc : List (List Cell)),
      (∀ row ∈ brs, row.length = colsN ∧ ∀ c ∈ row, validCell c = true) →
      acc.length + brs.length = rowsN →
      rowsN ≠ 0 →
      loadGo rowsN colsN (brs.map saveRowLine) acc = .ok (acc ++ brs) := by
  intro brs
  induction brs with
  | nil =>
    intro acc _ hcount hne
    simp only [List.length_nil, Nat.add_zero] at hcount
    rw [List.map_nil, loadGo, if_neg (by omega), if_neg (by omega)]
    simp
  | cons row rest ih =>
    intro acc hval hcount hne
    obtain ⟨hrlen, hrv⟩ := hval row (List.mem_cons_self row rest)
    have hrow_ne : row ≠ [] := by
      intro h
      rw [h] at hrlen
      simp at hrlen
      omega
    have hstrip : pyStrip (saveRowLine row) = rowCore row := by
      rw [saveRowLine_eq_core row hrow_ne]
      apply pyStrip_core_space _ (rowCore_ne_nil row hrow_ne)
      · intro x hx
        obtain ⟨c, hc, hh⟩ := rowCore_head? row hrow_ne
        rw [hh] at hx
        have hcv := hrv c hc
        rw [validCell, Bool.and_eq_true] at hcv
        cases hx
        exact validX_not_space _ hcv.1
      · intro x hx
        obtain ⟨c, hc, hh⟩ := rowCore_getLast? row hrow_ne
        rw [hh] at hx
        have hcv := hrv c hc
        rw [validCell, Bool.and_eq_true] at hcv
        cases hx
        exact validY_not_space _ hcv.2
    rw [List.map_cons, loadGo]
    simp only [hstrip]
    rw [if_neg (by
      intro h
      exact rowCore_ne_nil row hrow_ne (List.eq_nil_of_length_eq_zero h))]
    rw [pySplitSp_rowCore row hrv hrow_ne, validateRow_tokens row hrv]
    simp only []
    rw [if_neg (by simp [hrlen])]
    have := ih (acc ++ [row])
      (fun r hr => hval r (List.mem_cons_of_mem row hr))
      (by simp at hcount ⊢; omega) hne
    rw [this]
    simp

/-- C6: for every validly-constructed grid, loading the row lines that
`save_board` writes (the lines after the two dimension lines, each
carrying a trailing space before its newline) into a grid of the same
dimensions reconstructs the cell matrix exactly. -/
theorem claim_C6_round_trip (b : Board) (hb : ValidBoard b) :
    loadBoard b.rows b.columns (saveLines b) = .ok b.board := by
  obtain ⟨hr1, hr20, hc2, hc50, ⟨hlen, hrows⟩, hvalid⟩ := hb
  rw [loadBoard, saveLines]
  have := loadGo_save b.rows b.columns (by omega) b.board []
    (fun row hrow => ⟨hrows row hrow, hvalid row hrow⟩)
    (by simp [hlen]) (by omega)
  rw [this]
  simp

/-- C6 at a concrete input: a 1×2 board holding a revealed digit and a
hidden mine. -/
theorem claim_C6_witness :
    ValidBoard (⟨1, 2, [[('1', 'S'), ('*', 'H')]]⟩ : Board) ∧
    loadBoard 1 2 (saveLines ⟨1, 2, [[('1', 'S'), ('*', 'H')]]⟩) =
      .ok [[('1', 'S'), ('*', 'H')]] :=
  ⟨by decide, claim_C6_round_trip ⟨1, 2, [[('1', 'S'), ('*', 'H')]]⟩ (by decide)⟩

/-! ## Counting mines -/

lemma list_decomp_at (l : List Cell) (n : Nat) (h : n < l.length) :
    l = l.take n ++ (l[n]) :: l.drop (n + 1) := by
  conv_lhs => rw [← List.take_append_drop n l]
  congr 1
  exact (List.getElem_cons_drop l n h).symm

lemma countP_set_cell (l : List Cell) (n : Nat) (a : Cell) (p : Cell → Bool)
    (h : n < l.length) :
    (l.set n a).countP p + (if p (l[n]) then 1 else 0) =
      l.countP p + (if p a then 1 else 0) := by
  rw [List.set_eq_take_append_cons_drop, if_pos h]
  conv_rhs => rw [list_decomp_at l n h]
  rw [List.countP_append, List.countP_append, List.countP_cons, List.countP_cons]
  omega

lemma sum_set_nat (l : List Nat) (n : Nat) (x : Nat) (h : n < l.length) :
    (l.set n x).sum + l[n] = l.sum + x := by
  rw [List.set_eq_take_append_cons_drop, if_pos h]
  conv_rhs => rw [show l = l.take n ++ (l[n]) :: l.drop (n + 1) by
    conv_lhs => rw [← List.take_append_drop n l]
    congr 1
    exact (List.getElem_cons_drop l n h).symm]
  rw [List.sum_append, List.sum_append, List.sum_cons, List.sum_cons]
  omega

lemma countMines_map_sum (b : Board) :
    countMines b = (b.board.map (List.countP (fun c => c.1 == '*'))).sum := by
  rw [countMines, List.countP_flatten]

/-- The mine-count bookkeeping equation for a single cell write. -/
lemma countMines_setCellB (b : Board) (r c : Int) (v : Cell) (hwf : WF b)
    (hin : checkIndices b r c = true) :
    countMines (setCellB b r c v) + (if (getCell b r c).1 == '*' then 1 else 0) =
      countMines b + (if v.1 == '*' then 1 else 0) := by
  obtain ⟨hr, hc, hcell⟩ := getCell_eq_getElem b r c hwf hin
  have hboard : (setCellB b r c v).board =
      b.board.set r.toNat ((b.board[r.toNat]).set c.toNat v) := by
    rw [setCellB, List.getD_eq_getElem _ _ hr]
  have h1 : countMines (setCellB b r c v) =
      ((b.board.map (List.countP (fun x => x.1 == '*'))).set r.toNat
        (((b.board[r.toNat]).set c.toNat v).countP (fun x => x.1 == '*'))).sum := by
    rw [countMines_map_sum]
    have : (setCellB b r c v).board.map (List.countP (fun x => x.1 == '*')) =
        (b.board.map (List.countP (fun x => x.1 == '*'))).set r.toNat
          (((b.board[r.toNat]).set c.toNat v).countP (fun x => x.1 == '*')) := by
      rw [hboard, List.map_set]
    rw [this]
  have hlenmap : r.toNat < (b.board.map (List.countP (fun x => x.1 == '*'))).length := by
    simpa using hr
  have h2 := sum_set_nat (b.board.map (List.countP (fun x => x.1 == '*'))) r.toNat
    (((b.board[r.toNat]).set c.toNat v).countP (fun x => x.1 == '*')) hlenmap
  have h3 : (b.board.map (List.countP (fun x => x.1 == '*')))[r.toNat] =
      (b.board[r.toNat]).countP (fun x => x.1 == '*') := List.getElem_map ..
  have h4 := countP_set_cell (b.board[r.toNat]) c.toNat v (fun x => x.1 == '*') hc
  rw [h1]
  rw [h3] at h2
  rw [← countMines_map_sum] at h2
  rw [hcell]
  omega

lemma countMines_zero_of_start (b : Board)
    (hall : ∀ x ∈ b.board.flatten, x = ('0', 'H')) : countMines b = 0 := by
  rw [countMines, List.countP_eq_zero]
  intro x hx
  rw [hall x hx]
  decide

/-- With well-formed dimensions, the starting-state scan accepts
exactly the all-`'0H'` matrices. -/
lemma startStateOk_iff (b : Board) (hwf : WF b) :
    startStateOk b = true ↔ ∀ x ∈ b.board.flatten, x = ('0', 'H') := by
  obtain ⟨hlen, hrows⟩ := hwf
  constructor
  · intro h x hx
    rw [startStateOk] at h
    simp only [List.all_eq_true, List.mem_range] at h
    rw [List.mem_flatten] at hx
    obtain ⟨row, hrow, hxrow⟩ := hx
    obtain ⟨i, hi, hieq⟩ := List.mem_iff_getElem.mp hrow
    obtain ⟨j, hj, hjeq⟩ := List.mem_iff_getElem.mp hxrow
    have hcell : getCell b (i : Int) (j : Int) = x := by
      have hbb : b.board.getD i [] = row := by
        rw [List.getD_eq_getElem _ _ hi]; exact hieq
      rw [getCell]
      simp only [Int.toNat_natCast]
      rw [hbb, List.getD_eq_getElem _ _ hj]
      exact hjeq
    have hrow_len : row.length = b.columns := hrows _ hrow
    have := h i (by omega) j (by omega)
    simp only [Bool.and_eq_true, beq_iff_eq] at this
    obtain ⟨hv, hh⟩ := this
    rw [getValue, hcell] at hv
    rw [isHiddenCh_eq_H_iff] at hh
    · rw [hcell] at hh
      obtain ⟨x1, x2⟩ := x
      simp only [Prod.mk.injEq]
      exact ⟨hv, hh⟩
  · intro h
    rw [startStateOk]
    simp only [List.all_eq_true, List.mem_range]
    intro i hi j hj
    have hin : checkIndices b (i : Int) (j : Int) = true := by
      rw [checkIndices_iff]
      constructor
      · omega
      · exact ⟨by omega, by omega, by omega⟩
    have hx := h (getCell b (i : Int) (j : Int))
      (getCell_mem_flatten b (i : Int) (j : Int) ⟨hlen, hrows⟩ hin)
    rw [getValue, isHiddenCh, hx]
    simp

/-! ## Mine placement -/

lemma checkIndices_congr (b b' : Board) (hr : b'.rows = b.rows)
    (hc : b'.columns = b.columns) (r c : Int) :
    checkIndices b' r c = checkIndices b r c := by
  rw [checkIndices, checkIndices, hr, hc]

/-- A terminating placement loop yields a well-formed board of the same
dimensions holding exactly `target` mines. -/
lemma placeLoop_some (target : Nat) :
    ∀ (choices : List Pos) (b : Board) (placed : Nat) (b' : Board),
      WF b →
      (∀ p ∈ choices, checkIndices b p.1 p.2 = true) →
      countMines b = placed → placed ≤ target →
      placeLoop target choices b placed = some b' →
      WF b' ∧ b'.rows = b.rows ∧ b'.columns = b.columns ∧
        countMines b' = target := by
  intro choices
  induction choices with
  | nil =>
    intro b placed b' hwf _ hcount hle h
    rw [placeLoop] at h
    by_cases hge : placed ≥ target
    · rw [if_pos hge] at h
      have hb : b = b' := by simpa using h
      subst hb
      exact ⟨hwf, rfl, rfl, by omega⟩
    · rw [if_neg hge] at h
      simp at h
  | cons pr rest ih =>
    intro b placed b' hwf hch hcount hle h
    rw [placeLoop] at h
    by_cases hge : placed ≥ target
    · rw [if_pos hge] at h
      have hb : b = b' := by simpa using h
      subst hb
      exact ⟨hwf, rfl, rfl, by omega⟩
    · rw [if_neg hge] at h
      obtain ⟨i, j⟩ := pr
      have hin := hch (i, j) (List.mem_cons_self _ _)
      by_cases hv : getValue b i j ≠ '*'
      · rw [if_pos hv] at h
        have hcm := countMines_setCellB b i j ('*', 'H') hwf hin
        have hold : ((getCell b i j).1 == '*') = false := by
          simpa using hv
        rw [hold] at hcm
        simp at hcm
        obtain ⟨h1, h2, h3, h4⟩ := ih (setCellB b i j ('*', 'H')) (placed + 1) b'
          (WF_setCellB b i j _ hwf hin)
          (fun q hq => hch q (List.mem_cons_of_mem _ hq))
          (by omega) (by omega) h
        exact ⟨h1, h2, h3, h4⟩
      · rw [if_neg hv] at h
        exact ih b placed b' hwf
          (fun q hq => hch q (List.mem_cons_of_mem _ hq)) hcount hle h

lemma cellIndices_nodup (R C : Nat) : (cellIndices R C).Nodup := by
  rw [cellIndices, List.nodup_flatMap]
  constructor
  · intro i _
    exact (List.nodup_range C).map fun a b h => by simpa using h
  · refine List.Pairwise.imp ?_ (List.nodup_range R)
    intro a b hab x hx hy
    simp only [List.mem_map, List.mem_range] at hx hy
    obtain ⟨c1, _, h1⟩ := hx
    obtain ⟨c2, _, h2⟩ := hy
    subst h1
    injection h2 with h3 h4
    exact hab h3.symm

lemma cellIndices_mem (R C : Nat) (q : Nat × Nat) :
    q ∈ cellIndices R C ↔ q.1 < R ∧ q.2 < C := by
  rw [cellIndices]
  simp only [List.mem_flatMap, List.mem_map, List.mem_range]
  constructor
  · rintro ⟨i, hi, j, hj, rfl⟩; exact ⟨hi, hj⟩
  · intro ⟨h1, h2⟩; exact ⟨q.1, h1, q.2, h2, rfl⟩

lemma minesTouching_le8 (b : Board) (i j : Int) : minesTouching b i j ≤ 8 :=
  le_trans (List.countP_le_length _) (le_trans (List.length_filter_le _ _) (by rfl))

lemma digitChar_ne_star (n : Nat) (h : n ≤ 8) : digitChar n ≠ '*' := by
  interval_cases n <;> decide

lemma countP_filter_bounds (b : Board) (l : List Pos) (f : Pos → Bool) :
    ((l.filter (fun p => 0 ≤ p.1 && p.1 < (b.rows : Int) &&
        0 ≤ p.2 && p.2 < (b.columns : Int))).countP f)
      = l.countP (fun p => f p && checkIndices b p.1 p.2) := by
  rw [List.countP_filter]
  apply List.countP_congr
  intro p _
  have e1 : (decide (0 ≤ p.1) && decide (p.1 < (b.rows : Int)) &&
      decide (0 ≤ p.2) && decide (p.2 < (b.columns : Int))) =
      checkIndices b p.1 p.2 := by
    rw [Bool.eq_iff_iff]
    rw [checkIndices_iff]
    simp only [Bool.and_eq_true, decide_eq_true_eq]
    constructor
    · intro h; omega
    · intro h; omega
  rw [e1]

lemma minePred_congr (b b0 : Board) (hr : b.rows = b0.rows)
    (hc : b.columns = b0.columns)
    (hm : ∀ r c : Int, checkIndices b0 r c = true →
      (getValue b r c == '*') = (getValue b0 r c == '*')) (p : Pos) :
    ((getValue b p.1 p.2 == '*') && checkIndices b p.1 p.2)
      = ((getValue b0 p.1 p.2 == '*') && checkIndices b0 p.1 p.2) := by
  rw [checkIndices_congr b0 b hr hc]
  by_cases hin : checkIndices b0 p.1 p.2 = true
  · rw [hin, hm p.1 p.2 hin]
  · have h0 : checkIndices b0 p.1 p.2 = false := by simpa using hin
    rw [h0]
    simp

/-- The digit-update pass counts mines in the same way on any board
with the same dimensions and the same mine cells; its own counting list
(`surrounding_coords`) is a permutation of the specification's
clockwise enumeration. -/
lemma minesTouching_eq_spec (b b0 : Board) (hr : b.rows = b0.rows)
    (hc : b.columns = b0.columns)
    (hm : ∀ r c : Int, checkIndices b0 r c = true →
      (getValue b r c == '*') = (getValue b0 r c == '*'))
    (i j : Int) :
    minesTouching b i j = specMineCount b0 i j := by
  rw [minesTouching, specMineCount, specNeighbours]
  rw [countP_filter_bounds b (surroundingCoords i j),
    countP_filter_bounds b0 _]
  have hcongr : (surroundingCoords i j).countP
      (fun p => (getValue b p.1 p.2 == '*') && checkIndices b p.1 p.2) =
      (surroundingCoords i j).countP
        (fun p => (getValue b0 p.1 p.2 == '*') && checkIndices b0 p.1 p.2) :=
    List.countP_congr (fun p _ => by rw [minePred_congr b b0 hr hc hm p])
  rw [hcongr, surroundingCoords]
  simp only [List.countP_cons, List.countP_nil]
  ring

lemma specMineCount_congr (b b0 : Board) (hr : b.rows = b0.rows)
    (hc : b.columns = b0.columns)
    (hm : ∀ r c : Int, checkIndices b0 r c = true →
      (getValue b r c == '*') = (getValue b0 r c == '*'))
    (i j : Int) :
    specMineCount b i j = specMineCount b0 i j := by
  rw [specMineCount, specMineCount, specNeighbours, specNeighbours]
  rw [countP_filter_bounds b _, countP_filter_bounds b0 _]
  exact List.countP_congr (fun p _ => by rw [minePred_congr b b0 hr hc hm p])

lemma updateStep_eq (b : Board) (q : Nat × Nat) :
    updateStep b q = if getValue b (q.1 : Int) (q.2 : Int) = '*' then b
      else setCellB b (q.1 : Int) (q.2 : Int)
        (digitChar (minesTouching b (q.1 : Int) (q.2 : Int)), 'H') := rfl

/-- The digit-update pass, processed cell by cell: dimensions,
well-formedness, the mine set, and the mine count are preserved;
unprocessed cells keep their contents; every processed non-mine cell
ends up holding the digit of its specification neighbour-mine count,
hidden. -/
lemma foldl_updateStep (b0 : Board) :
    ∀ (L : List (Nat × Nat)) (b : Board),
      b.rows = b0.rows → b.columns = b0.columns → WF b → L.Nodup →
      (∀ q ∈ L, q.1 < b0.rows ∧ q.2 < b0.columns) →
      (∀ r c : Int, checkIndices b0 r c = true →
        (getValue b r c == '*') = (getValue b0 r c == '*')) →
      (L.foldl updateStep b).rows = b0.rows ∧
      (L.foldl updateStep b).columns = b0.columns ∧
      WF (L.foldl updateStep b) ∧
      countMines (L.foldl updateStep b) = countMines b ∧
      (∀ r c : Int, checkIndices b0 r c = true →
        (getValue (L.foldl updateStep b) r c == '*') = (getValue b0 r c == '*')) ∧
      (∀ r c : Int, checkIndices b0 r c = true → (r.toNat, c.toNat) ∉ L →
        getCell (L.foldl updateStep b) r c = getCell b r c) ∧
      (∀ q ∈ L, getValue b0 (q.1 : Int) (q.2 : Int) ≠ '*' →
        getCell (L.foldl updateStep b) (q.1 : Int) (q.2 : Int) =
          (digitChar (specMineCount b0 (q.1 : Int) (q.2 : Int)), 'H')) := by
  intro L
  induction L with
  | nil =>
    intro b hr hc hwf _ _ hm
    refine ⟨hr, hc, hwf, rfl, hm, fun r c _ _ => rfl, fun q hq => absurd hq (List.not_mem_nil q)⟩
  | cons q L' ih =>
    intro b hr hc hwf hnd hbnd hm
    have hq := hbnd q (List.mem_cons_self q L')
    have qin0 : checkIndices b0 (q.1 : Int) (q.2 : Int) = true := by
      rw [checkIndices_iff]
      refine ⟨by omega, by omega, by omega, by omega⟩
    have qinb : checkIndices b (q.1 : Int) (q.2 : Int) = true := by
      rw [checkIndices_congr b0 b hr hc]
      exact qin0
    rw [List.foldl_cons]
    by_cases hber : getValue b (q.1 : Int) (q.2 : Int) = '*'
    · have hstep : updateStep b q = b := by rw [updateStep_eq, if_pos hber]
      rw [hstep]
      obtain ⟨c1, c2, c3, c4, c5, c6, c7⟩ := ih b hr hc hwf
        (List.nodup_cons.mp hnd).2
        (fun p hp => hbnd p (List.mem_cons_of_mem q hp)) hm
      refine ⟨c1, c2, c3, c4, c5,
        fun r c hin hnm => c6 r c hin (fun hmem => hnm (List.mem_cons_of_mem q hmem)),
        ?_⟩
      intro p hp hguard
      rcases List.mem_cons.mp hp with hp | hp
      · exfalso
        apply hguard
        have := hm (q.1 : Int) (q.2 : Int) qin0
        rw [hber] at this
        simp only [beq_self_eq_true] at this
        have h0 : (getValue b0 (q.1 : Int) (q.2 : Int) == '*') = true := this.symm
        rw [hp]
        exact (beq_iff_eq ..).mp h0
      · exact c7 p hp hguard
    · have hstep : updateStep b q = setCellB b (q.1 : Int) (q.2 : Int)
          (digitChar (minesTouching b (q.1 : Int) (q.2 : Int)), 'H') := by
        rw [updateStep_eq, if_neg hber]
      rw [hstep]
      have hwf' : WF (setCellB b (q.1 : Int) (q.2 : Int)
          (digitChar (minesTouching b (q.1 : Int) (q.2 : Int)), 'H')) :=
        WF_setCellB b _ _ _ hwf qinb
      have hdchar : digitChar (minesTouching b (q.1 : Int) (q.2 : Int)) ≠ '*' :=
        digitChar_ne_star _ (minesTouching_le8 b _ _)
      have hm' : ∀ r c : Int, checkIndices b0 r c = true →
          (getValue (setCellB b (q.1 : Int) (q.2 : Int)
            (digitChar (minesTouching b (q.1 : Int) (q.2 : Int)), 'H')) r c == '*')
            = (getValue b0 r c == '*') := by
        intro r c hin0
        have hinb : checkIndices b r c = true := by
          rw [checkIndices_congr b0 b hr hc]; exact hin0
        rw [getValue, getCell_setCellB b _ _ r c _ hwf qinb hinb]
        by_cases he : (q.1 : Int) = r ∧ (q.2 : Int) = c
        · rw [if_pos he]
          have h1 : ((digitChar (minesTouching b (q.1 : Int) (q.2 : Int)), 'H').1
              == '*') = false := by simpa using hdchar
          have h2 := hm r c hin0
          rw [← he.1, ← he.2] at h2 ⊢
          rw [getValue] at h2
          have h3 : ((getCell b (q.1 : Int) (q.2 : Int)).1 == '*') = false := by
            rw [← getValue]
            simpa using hber
          rw [h3] at h2
          rw [h1, ← h2]
        · rw [if_neg he, ← getValue]
          exact hm r c hin0
      have hcm : countMines (setCellB b (q.1 : Int) (q.2 : Int)
          (digitChar (minesTouching b (q.1 : Int) (q.2 : Int)), 'H')) =
          countMines b := by
        have := countMines_setCellB b (q.1 : Int) (q.2 : Int)
          (digitChar (minesTouching b (q.1 : Int) (q.2 : Int)), 'H') hwf qinb
        have h1 : ((getCell b (q.1 : Int) (q.2 : Int)).1 == '*') = false := by
          rw [← getValue]; simpa using hber
        have h2 : ((digitChar (minesTouching b (q.1 : Int) (q.2 : Int)), 'H').1
            == '*') = false := by simpa using hdchar
        rw [h1, h2] at this
        simpa using this
      obtain ⟨c1, c2, c3, c4, c5, c6, c7⟩ := ih _
        (by rw [setCellB_rows]; exact hr) (by rw [setCellB_columns]; exact hc)
        hwf' (List.nodup_cons.mp hnd).2
        (fun p hp => hbnd p (List.mem_cons_of_mem q hp)) hm'
      refine ⟨c1, c2, c3, by rw [c4, hcm], c5, ?_, ?_⟩
      · intro r c hin0 hnm
        have hinb : checkIndices b r c = true := by
          rw [checkIndices_congr b0 b hr hc]; exact hin0
        rw [c6 r c hin0 (fun hmem => hnm (List.mem_cons_of_mem q hmem))]
        rw [getCell_setCellB b _ _ r c _ hwf qinb hinb, if_neg ?_]
        intro he
        apply hnm
        have h1 : r.toNat = q.1 := by omega
        have h2 : c.toNat = q.2 := by omega
        rw [h1, h2]
        exact List.mem_cons_self _ _
      · intro p hp hguard
        rcases List.mem_cons.mp hp with hp | hp
        · subst hp
          have hnotin : ((p.1 : Int).toNat, (p.2 : Int).toNat) ∉ L' := by
            simp only [Int.toNat_natCast]
            intro hmem
            exact (List.nodup_cons.mp hnd).1 (by
              have : (p.1, p.2) = p := rfl
              rw [← this]
              exact hmem)
          rw [c6 (p.1 : Int) (p.2 : Int) qin0 hnotin]
          rw [getCell_setCellB b _ _ _ _ _ hwf qinb qinb,
            if_pos ⟨rfl, rfl⟩]
          rw [minesTouching_eq_spec b b0 hr hc hm]
        · exact c7 p hp hguard

/-- Everything a successful `put_mines` guarantees: the mine-count
bounds held, the final board is well-formed with unchanged dimensions,
it has exactly the requested number of mines, and every non-mine cell
holds the digit of its neighbour-mine count. -/
lemma putMines_ok_inv (b : Board) (mines : Int) (choices : List Pos) (bf : Board)
    (hwf : WF b) (hch : ∀ p ∈ choices, checkIndices b p.1 p.2 = true)
    (hok : putMines b mines choices = .ok (some bf)) :
    1 ≤ mines ∧ WF bf ∧ bf.rows = b.rows ∧ bf.columns = b.columns ∧
    countMines bf = mines.toNat ∧
    (∀ r c : Int, checkIndices bf r c = true → getValue bf r c ≠ '*' →
      getValue bf r c = digitChar (specMineCount bf r c)) := by
  rw [putMines] at hok
  split at hok
  · simp at hok
  · split at hok
    · simp at hok
    · next h1 h2 =>
      have hb1 : ¬ (mines < 1 ∨ mines > (b.rows * b.columns : Int) - 1) := by
        intro hcon
        apply h1
        rcases hcon with hcon | hcon <;> simp [hcon]
      have hstart : startStateOk b = true := by
        by_contra hs
        exact h2 (by simp [Bool.not_eq_true] at hs ⊢; exact hs)
      have hmap : (placeLoop mines.toNat choices b 0).map updateDigits =
          some bf := by simpa using hok
      obtain ⟨bp, hbp, hbf⟩ := Option.map_eq_some'.mp hmap
      have hall := (startStateOk_iff b hwf).mp hstart
      have hcm0 : countMines b = 0 := countMines_zero_of_start b hall
      obtain ⟨hwfp, hrp, hcp, hcmp⟩ := placeLoop_some mines.toNat choices b 0 bp
        hwf hch hcm0 (by omega) hbp
      have hbf' : bf = (cellIndices bp.rows bp.columns).foldl updateStep bp := by
        rw [← hbf]; rfl
      obtain ⟨c1, c2, c3, c4, c5, c6, c7⟩ := foldl_updateStep bp
        (cellIndices bp.rows bp.columns) bp rfl rfl hwfp
        (cellIndices_nodup _ _) (fun q hq => (cellIndices_mem _ _ q).mp hq)
        (fun r c _ => rfl)
      rw [← hbf'] at c1 c2 c3 c4 c5 c6 c7
      have hrows_bf : bf.rows = b.rows := by rw [c1, hrp]
      have hcols_bf : bf.columns = b.columns := by rw [c2, hcp]
      refine ⟨by omega, c3, hrows_bf, hcols_bf, by rw [c4, hcmp], ?_⟩
      intro r c hinf hnm
      have hinp : checkIndices bp r c = true := by
        rw [← checkIndices_congr bp bf (by rw [c1]) (by rw [c2])]
        exact hinf
      have hbnds := (checkIndices_iff bp r c).mp hinp
      have hrcast : ((r.toNat : Nat) : Int) = r := Int.toNat_of_nonneg (by omega)
      have hccast : ((c.toNat : Nat) : Int) = c := Int.toNat_of_nonneg (by omega)
      have hq : (r.toNat, c.toNat) ∈ cellIndices bp.rows bp.columns := by
        rw [cellIndices_mem]
        constructor <;> (simp only []; omega)
      have hmatch := c5 r c hinp
      have hguard : getValue bp ((r.toNat, c.toNat).1 : Int)
          ((r.toNat, c.toNat).2 : Int) ≠ '*' := by
        simp only [hrcast, hccast]
        intro hcon
        apply hnm
        have : (getValue bp r c == '*') = true := by simpa using hcon
        rw [← hmatch] at this
        simpa using this
      have hval := c7 (r.toNat, c.toNat) hq hguard
      simp only [hrcast, hccast] at hval
      have hspec : specMineCount bf r c = specMineCount bp r c :=
        specMineCount_congr bf bp (by rw [c1]) (by rw [c2]) c5 r c
      rw [getValue, hval, hspec]

lemma putMines_err_bounds (b : Board) (mines : Int) (choices : List Pos)
    (h : mines < 1 ∨ (b.rows * b.columns : Int) - 1 < mines) :
    putMines b mines choices = .error .scatter := by
  rw [putMines, if_pos (by rcases h with h | h <;> simp [h])]

lemma putMines_err_state (b : Board) (hwf : WF b) (mines : Int)
    (choices : List Pos)
    (hnot : ¬ ∀ x ∈ b.board.flatten, x = ('0', 'H')) :
    putMines b mines choices = .error .scatter := by
  rw [putMines]
  split_ifs with h1 h2
  · rfl
  · rfl
  · exfalso
    apply hnot
    apply (startStateOk_iff b hwf).mp
    by_contra hs
    exact h2 (by simp [Bool.not_eq_true] at hs ⊢; exact hs)

/-- C7: whenever `put_mines` terminates successfully (the random
stream placed all the mines) on a grid in its initial state, the final
grid holds exactly `mines` mine cells, and every non-mine cell's value
is the digit of the number of its in-bounds 8-neighbours that hold a
mine. -/
theorem claim_C7_mines_and_counts (b : Board) (mines : Int)
    (choices : List Pos) (bf : Board) (hwf : WF b)
    (hch : ∀ p ∈ choices, checkIndices b p.1 p.2 = true)
    (hok : putMines b mines choices = .ok (some bf)) :
    countMines bf = mines.toNat ∧
    ∀ r c : Int, checkIndices bf r c = true → getValue bf r c ≠ '*' →
      getValue bf r c = digitChar (specMineCount bf r c) :=
  let h := putMines_ok_inv b mines choices bf hwf hch hok
  ⟨h.2.2.2.2.1, h.2.2.2.2.2⟩

/-- C7 at a concrete input: a 1×2 board, one mine, the random stream
chooses the origin. -/
theorem claim_C7_witness :
    putMines ⟨1, 2, [[('0', 'H'), ('0', 'H')]]⟩ 1 [(0, 0)] =
      .ok (some ⟨1, 2, [[('*', 'H'), ('1', 'H')]]⟩) ∧
    countMines ⟨1, 2, [[('*', 'H'), ('1', 'H')]]⟩ = (1 : Int).toNat ∧
    (∀ r c : Int,
      checkIndices ⟨1, 2, [[('*', 'H'), ('1', 'H')]]⟩ r c = true →
      getValue ⟨1, 2, [[('*', 'H'), ('1', 'H')]]⟩ r c ≠ '*' →
      getValue ⟨1, 2, [[('*', 'H'), ('1', 'H')]]⟩ r c =
        digitChar (specMineCount ⟨1, 2, [[('*', 'H'), ('1', 'H')]]⟩ r c)) :=
  ⟨rfl, claim_C7_mines_and_counts ⟨1, 2, [[('0', 'H'), ('0', 'H')]]⟩ 1
    [(0, 0)] ⟨1, 2, [[('*', 'H'), ('1', 'H')]]⟩ (by decide) (by decide) rfl⟩

/-- C8: `put_mines` fails with `ScatterException` whenever the count is
below 1 or above `rows*columns - 1`, or the grid is not in its initial
all-`'0H'` state; in this functional embedding a failing call returns
no board, so the grid is unmodified; and a second call after a
successful first one always fails, whatever its arguments. -/
theorem claim_C8_invalid_mine_count (b : Board) (hwf : WF b) :
    (∀ (mines : Int) (choices : List Pos),
      mines < 1 ∨ (b.rows * b.columns : Int) - 1 < mines →
      putMines b mines choices = .error .scatter) ∧
    (∀ (mines : Int) (choices : List Pos),
      ¬ (∀ x ∈ b.board.flatten, x = ('0', 'H')) →
      putMines b mines choices = .error .scatter) ∧
    (∀ (mines : Int) (choices : List Pos) (bf : Board),
      (∀ p ∈ choices, checkIndices b p.1 p.2 = true) →
      putMines b mines choices = .ok (some bf) →
      ∀ (mines' : Int) (choices' : List Pos),
        putMines bf mines' choices' = .error .scatter) := by
  refine ⟨fun m cs h => putMines_err_bounds b m cs h,
    fun m cs h => putMines_err_state b hwf m cs h, ?_⟩
  intro m cs bf hch hok m' cs'
  obtain ⟨hm1, hwfb, _, _, hcm, _⟩ := putMines_ok_inv b m cs bf hwf hch hok
  apply putMines_err_state bf hwfb m' cs'
  intro hall
  have h0 : countMines bf = 0 := countMines_zero_of_start bf hall
  omega

/-- C8 at concrete inputs: a zero mine count is rejected, and a second
`put_mines` after a successful one is rejected. -/
theorem claim_C8_witness :
    putMines ⟨1, 2, [[('0', 'H'), ('0', 'H')]]⟩ 0 [] = .error .scatter ∧
    putMines ⟨1, 2, [[('*', 'H'), ('1', 'H')]]⟩ 1 [(0, 1)] = .error .scatter :=
  ⟨(claim_C8_invalid_mine_count ⟨1, 2, [[('0', 'H'), ('0', 'H')]]⟩
      (by decide)).1 0 [] (Or.inl (by decide)),
    (claim_C8_invalid_mine_count ⟨1, 2, [[('0', 'H'), ('0', 'H')]]⟩
      (by decide)).2.2 1 [(0, 0)] ⟨1, 2, [[('*', 'H'), ('1', 'H')]]⟩
      (by decide) rfl 1 [(0, 1)]⟩
